import Mathlib

/-!
Shallow embedding of the `terraform-provider-pocinfobipemails` provider.

The embedding models, faithfully to the Go source:
* `normalizeHTML` (internal/provider/email_template_resource.go): CRLF
  replacement, `strings.TrimSpace`, `strings.Join(strings.Fields(s), " ")`,
  and the regex replacement of ">[\s]*<" by "><";
* the `html` diff-suppression plan modifier (`PlanModifyString`);
* the resource lifecycle handlers `Create`, `Read`, `Update`, `Delete`
  and `ImportState`, with the remote API call modelled as an explicit
  result value (response struct, error flag, HTTP status);
* `fmt.Sscanf(id, "%d", &idInt)` with the error ignored;
* the provider `Configure` credential resolution.

Strings are modelled as Lean `String`s (lists of characters); machine
integers are `Int` with explicit range checks where Go performs them.
-/

namespace PocInfobipEmails

/-- Whitespace as decided by Go's `unicode.IsSpace` (the Unicode White_Space
property), which is the predicate used by `strings.TrimSpace` and
`strings.Fields`, and also the space class used by `fmt`'s scanner. -/
def goIsSpace (c : Char) : Bool :=
  let n := c.toNat
  (9 ≤ n && n ≤ 13) || n = 32 || n = 0x85 || n = 0xA0 || n = 0x1680 ||
  (0x2000 ≤ n && n ≤ 0x200A) || n = 0x2028 || n = 0x2029 || n = 0x202F ||
  n = 0x205F || n = 0x3000

/-- The character class matched by `[\s]` in Go's `regexp` package
(RE2 Perl class `\s`), namely tab, newline, form feed, carriage return
and space. -/
def regexSpace (c : Char) : Bool :=
  let n := c.toNat
  n = 9 || n = 10 || n = 12 || n = 13 || n = 32

/-- Step 1 of `normalizeHTML`: `strings.ReplaceAll(raw, "\r\n", "\n")`,
replacing each (non-overlapping, leftmost-first) occurrence of CRLF by LF. -/
def replaceCRLF : List Char → List Char
  | [] => []
  | [c] => [c]
  | c :: c2 :: rest =>
    if c = '\r' ∧ c2 = '\n' then '\n' :: replaceCRLF rest
    else c :: replaceCRLF (c2 :: rest)

/-- Right half of `strings.TrimSpace`: drop the trailing run of
`unicode.IsSpace` characters. -/
def trimRight (s : List Char) : List Char :=
  (s.reverse.dropWhile goIsSpace).reverse

/-- Step 2 of `normalizeHTML`: `strings.TrimSpace`, dropping the leading and
trailing runs of `unicode.IsSpace` characters. -/
def trimSpace (s : List Char) : List Char :=
  trimRight (s.dropWhile goIsSpace)

/-- `strings.Fields`: the maximal runs of non-whitespace characters
(whitespace per `unicode.IsSpace`), in order. -/
def fields (s : List Char) : List (List Char) :=
  match s with
  | [] => []
  | c :: rest =>
    if goIsSpace c then fields rest
    else (c :: rest.takeWhile (fun x => !goIsSpace x)) ::
      fields (rest.dropWhile (fun x => !goIsSpace x))
termination_by s.length
decreasing_by
  · simp
  · have := (@List.dropWhile_sublist Char rest (fun x => !goIsSpace x)).length_le
    simp
    omega

/-- `strings.Join(_, " ")`: concatenate the given pieces with a single space
between consecutive pieces. -/
def joinSp : List (List Char) → List Char
  | [] => []
  | [x] => x
  | x :: y :: rest => x ++ ' ' :: joinSp (y :: rest)

/-- Step 4 of `normalizeHTML`: `regexp.MustCompile(">[\s]*<").ReplaceAllString(s, "><")`,
parameterised by the character class `p` standing for `[\s]`.  At each `>`
the (greedy) run of `p`-characters after it is deleted when the first
character past that run is `<`; scanning resumes after the match, and at the
next position otherwise. -/
def collapseTagsP (p : Char → Bool) (s : List Char) : List Char :=
  match s with
  | [] => []
  | c :: rest =>
    if c = '>' ∧ (rest.dropWhile p).head? = some '<' then
      '>' :: '<' :: collapseTagsP p (rest.dropWhile p).tail
    else
      c :: collapseTagsP p rest
termination_by s.length
decreasing_by
  · rename_i hcond
    have h1 := (@List.dropWhile_sublist Char rest p).length_le
    have h2 : (rest.dropWhile p) ≠ [] := by
      intro h
      rw [h] at hcond
      simp at hcond
    have h3 : (rest.dropWhile p).length ≠ 0 := by
      simpa using h2
    simp [List.length_tail]
    omega
  · simp

/-- `normalizeHTML` from `email_template_resource.go`, on character lists:
replace CRLF by LF, trim the ends, collapse inner whitespace runs via
`strings.Join(strings.Fields(s), " ")`, then delete whitespace between
`>` and `<` via the regex replacement. -/
def normalizeHTMLList (s : List Char) : List Char :=
  collapseTagsP regexSpace (joinSp (fields (trimSpace (replaceCRLF s))))

/-- `normalizeHTML` from `email_template_resource.go`. -/
def normalizeHTML (s : String) : String :=
  ⟨normalizeHTMLList s.data⟩

/-- The `normalize` closure defined inline in
`htmlWhitespaceInsensitiveModifier.PlanModifyString`: its body is the same
four transformation steps as `normalizeHTML`. -/
def planModifierNormalize (s : String) : String :=
  ⟨collapseTagsP regexSpace (joinSp (fields (trimSpace (replaceCRLF s.data))))⟩

/-- A Terraform framework string value (`types.String`): null, unknown, or
a known string. -/
inductive TFString where
  | null : TFString
  | unknown : TFString
  | known : String → TFString
deriving DecidableEq

/-- `types.String.ValueString()`: the known value, or `""` for null/unknown. -/
def TFString.valueString : TFString → String
  | .known s => s
  | _ => ""

/-- `types.String.IsNull()`. -/
def TFString.isNull : TFString → Bool
  | .null => true
  | _ => false

/-- `types.String.IsUnknown()`. -/
def TFString.isUnknown : TFString → Bool
  | .unknown => true
  | _ => false

/-- A Terraform framework boolean value (`types.Bool`). -/
inductive TFBool where
  | null : TFBool
  | unknown : TFBool
  | known : Bool → TFBool
deriving DecidableEq

/-- `htmlWhitespaceInsensitiveModifier.PlanModifyString`: given the stored
state value and the planned value of the `html` attribute, returns the
resulting plan value.  If either is null the plan value is returned
unchanged; otherwise, when the two values normalise equally, the stored
state value is installed as the plan value. -/
def PlanModifyString (stateValue planValue : TFString) : TFString :=
  if stateValue.isNull || planValue.isNull then planValue
  else if planModifierNormalize stateValue.valueString
      = planModifierNormalize planValue.valueString then stateValue
  else planValue

/-- Reference normalisation assembled from the specification's four steps:
(1) replace every CRLF by LF; (2) trim leading/trailing whitespace;
(3) collapse every whitespace run between tokens into one space, stated
here directly as a run-collapsing scan; (4) delete all whitespace occurring
directly between a `>` and a following `<` (generic whitespace, not the
regex class). -/
def specCollapseRuns (s : List Char) : List Char :=
  match s with
  | [] => []
  | c :: rest =>
    if goIsSpace c then ' ' :: specCollapseRuns (rest.dropWhile goIsSpace)
    else c :: specCollapseRuns rest
termination_by s.length
decreasing_by
  · have := (@List.dropWhile_sublist Char rest goIsSpace).length_le
    simp
    omega
  · simp

/-- The specification's normalisation contract, steps applied in order. -/
def specNormalizeHTML (s : String) : String :=
  ⟨collapseTagsP goIsSpace (specCollapseRuns (trimSpace (replaceCRLF s.data)))⟩

/-- `EmailTemplateResourceModel`: the declarative resource data model. -/
structure EmailTemplateResourceModel where
  ID : TFString
  Name : TFString
  From : TFString
  ReplyTo : TFString
  Subject : TFString
  Preheader : TFString
  Html : TFString
  IsHtmlEditable : TFBool
  LandingPage : TFString
  ImagePreviewUrl : TFString
  CreatedAt : TFString
  UpdatedAt : TFString
deriving DecidableEq

/-- The remote email-template representation returned by the generated
Infobip client (`EmailAPI` responses).  The generated `Execute` methods
return this struct by value together with the HTTP response and an error;
on failure the struct is the zero value. -/
structure EmailTemplateApiModel where
  ID : Int
  Name : String
  From : String
  ReplyTo : String
  Subject : String
  Preheader : String
  HTML : String
  IsHTMLEditable : Bool
  LandingPageID : String
  ImagePreviewURL : String
  CreatedAt : String
  UpdatedAt : String
deriving DecidableEq

/-- The zero value of the response struct, which the generated client
returns alongside a non-nil error. -/
def zeroApiModel : EmailTemplateApiModel :=
  ⟨0, "", "", "", "", "", "", false, "", "", "", ""⟩

/-- Outcome of a remote create/get/update call: the (possibly zero-valued)
response struct and whether `err != nil`. -/
structure ApiCallResult where
  response : EmailTemplateApiModel
  err : Bool
deriving DecidableEq

/-- Outcome of the remote delete call: the HTTP status code of the response
(`none` models a nil `*http.Response`, e.g. a transport failure) and
whether `err != nil`. -/
structure DeleteCallResult where
  httpStatus : Option Int
  err : Bool
deriving DecidableEq

/-- `fmt`'s leading-whitespace skipping for `Sscanf` (newlines are not
space for `Sscanf`): returns the remaining input, or `none` when a newline
is met in the skipped prefix, which makes the scan fail. A `\r` directly
followed by `\n` is treated as that newline. -/
def sscanfSkipSpace : List Char → Option (List Char)
  | [] => some []
  | '\r' :: '\n' :: _ => none
  | '\n' :: _ => none
  | c :: rest => if goIsSpace c then sscanfSkipSpace rest else some (c :: rest)

/-- The `%d` verb after whitespace skipping: an optional sign followed by a
non-empty run of decimal digits, parsed by `strconv.ParseInt` with the
`int64` range check.  On any scan or range error `fmt.Sscanf` leaves the
argument untouched, so the surrounding code keeps the zero value. -/
def sscanfParseInt (s : List Char) : Int :=
  let signAndRest : Bool × List Char :=
    match s with
    | [] => (false, [])
    | c :: r =>
      if c = '-' then (true, r)
      else if c = '+' then (false, r)
      else (false, c :: r)
  let ds := signAndRest.2.takeWhile Char.isDigit
  if ds = [] then 0
  else
    let n : Nat := ds.foldl (fun a c => a * 10 + (c.toNat - 48)) 0
    if signAndRest.1 then
      if n ≤ 9223372036854775808 then -(n : Int) else 0
    else
      if n < 9223372036854775808 then (n : Int) else 0

/-- `var idInt int64; fmt.Sscanf(id, "%d", &idInt)` with the returned error
discarded: the value scanned into `idInt`, or `0` when scanning fails. -/
def sscanfD (s : String) : Int :=
  match sscanfSkipSpace s.data with
  | none => 0
  | some t => sscanfParseInt t

/-- Whether a character list starts with an optionally signed decimal
digit, i.e. whether the `%d` verb can consume anything here. -/
def startsWithSignedDigit : List Char → Bool
  | [] => false
  | c :: r =>
    if c = '-' ∨ c = '+' then
      match r with
      | c2 :: _ => c2.isDigit
      | [] => false
    else c.isDigit

/-- Whether the `%d` scan of the given string gets as far as an optionally
signed digit: `fmt`'s whitespace skipping either aborts on a newline or
lands on the first character the `%d` verb inspects. -/
def sscanfFindsDigit (s : String) : Bool :=
  match sscanfSkipSpace s.data with
  | none => false
  | some t => startsWithSignedDigit t

/-- Result of `Create`: the diagnostics added and the state written via
`resp.State.Set` (`none` would mean no state written). -/
structure CreateResult where
  diagnostics : List String
  state : Option EmailTemplateResourceModel
deriving DecidableEq

/-- Result of `Read`: diagnostics, the refreshed state written via
`resp.State.Set` (`none` = untouched, prior state kept), and the integer id
sent to the remote get call. -/
structure ReadResult where
  diagnostics : List String
  state : Option EmailTemplateResourceModel
  requestedId : Int
deriving DecidableEq

/-- Result of `Update`: diagnostics, the new state written (`none` = prior
state retained), and the integer id sent to the remote update call. -/
structure UpdateResult where
  diagnostics : List String
  state : Option EmailTemplateResourceModel
  requestedId : Int
deriving DecidableEq

/-- Result of `Delete`: diagnostics, whether `resp.State.RemoveResource`
was called (local state removed), and the integer id sent to the remote
delete call. -/
structure DeleteResult where
  diagnostics : List String
  stateRemoved : Bool
  requestedId : Int
deriving DecidableEq

/-- `EmailTemplateResource.Create`.  The plan is read, the remote create is
issued, and — with no early return on error — the response is mapped over
the plan (the response struct being zero-valued when `err != nil`),
`createdAt`/`updatedAt` are stamped with the current time, and the state is
set unconditionally. -/
def EmailTemplateResource.Create (plan : EmailTemplateResourceModel)
    (remote : ApiCallResult) (now : String) : CreateResult :=
  let diags := if remote.err then ["Error Creating Email Template"] else []
  let t := remote.response
  let newPlan : EmailTemplateResourceModel :=
    { ID := .known (toString t.ID)
      Name := .known t.Name
      From := .known t.From
      ReplyTo := .known t.ReplyTo
      Subject := .known t.Subject
      Preheader := .known t.Preheader
      Html := .known (normalizeHTML t.HTML)
      IsHtmlEditable := .known t.IsHTMLEditable
      LandingPage := .known t.LandingPageID
      ImagePreviewUrl := .known t.ImagePreviewURL
      CreatedAt := .known now
      UpdatedAt := .known now }
  { diagnostics := diags, state := some newPlan }

/-- `EmailTemplateResource.Read`: parse the stored id (error ignored),
issue the remote get; on error add a diagnostic and leave state untouched,
otherwise overwrite every field from the response. -/
def EmailTemplateResource.Read (state : EmailTemplateResourceModel)
    (remote : ApiCallResult) : ReadResult :=
  let idInt := sscanfD state.ID.valueString
  if remote.err then
    { diagnostics := ["Error Reading HashiCups Order"], state := none,
      requestedId := idInt }
  else
    let t := remote.response
    let newState : EmailTemplateResourceModel :=
      { ID := .known (toString t.ID)
        Name := .known t.Name
        From := .known t.From
        ReplyTo := .known t.ReplyTo
        Subject := .known t.Subject
        Preheader := .known t.Preheader
        Html := .known (normalizeHTML t.HTML)
        IsHtmlEditable := .known t.IsHTMLEditable
        LandingPage := .known t.LandingPageID
        ImagePreviewUrl := .known t.ImagePreviewURL
        CreatedAt := .known t.CreatedAt
        UpdatedAt := .known t.UpdatedAt }
    { diagnostics := [], state := some newState, requestedId := idInt }

/-- `EmailTemplateResource.Update`: parse the prior state's id (error
ignored), issue the remote update with the plan's fields; on error add a
diagnostic and return (prior state retained); on success map the response
over the plan, preserving `createdAt` from the prior state when non-empty
(otherwise stamping the current time) and always stamping `updatedAt` with
the current time. -/
def EmailTemplateResource.Update (plan state : EmailTemplateResourceModel)
    (remote : ApiCallResult) (now : String) : UpdateResult :=
  let idInt := sscanfD state.ID.valueString
  if remote.err then
    { diagnostics := ["Error Updating Email Template"], state := none,
      requestedId := idInt }
  else
    let t := remote.response
    let newState : EmailTemplateResourceModel :=
      { ID := .known (toString t.ID)
        Name := .known t.Name
        From := .known t.From
        ReplyTo := .known t.ReplyTo
        Subject := .known t.Subject
        Preheader := .known t.Preheader
        Html := .known (normalizeHTML t.HTML)
        IsHtmlEditable := .known t.IsHTMLEditable
        LandingPage := .known t.LandingPageID
        ImagePreviewUrl := .known t.ImagePreviewURL
        CreatedAt := if state.CreatedAt.valueString ≠ "" then state.CreatedAt
          else .known now
        UpdatedAt := .known now }
    { diagnostics := [], state := some newState, requestedId := idInt }

/-- `EmailTemplateResource.Delete`: parse the stored id (error ignored),
issue the remote delete.  A non-nil error with a 404 response removes state
without a diagnostic; any other error adds a diagnostic and retains state;
otherwise state is removed. -/
def EmailTemplateResource.Delete (data : EmailTemplateResourceModel)
    (remote : DeleteCallResult) : DeleteResult :=
  let idInt := sscanfD data.ID.valueString
  if remote.err then
    if remote.httpStatus = some 404 then
      { diagnostics := [], stateRemoved := true, requestedId := idInt }
    else
      { diagnostics := ["Error Deleting Email Template"],
        stateRemoved := false, requestedId := idInt }
  else
    { diagnostics := [], stateRemoved := true, requestedId := idInt }

/-- `EmailTemplateResource.ImportState`
(`resource.ImportStatePassthroughID`): seed the state with only the `id`
attribute, taken verbatim. -/
def EmailTemplateResource.ImportState (id : String) : EmailTemplateResourceModel :=
  { ID := .known id
    Name := .null
    From := .null
    ReplyTo := .null
    Subject := .null
    Preheader := .null
    Html := .null
    IsHtmlEditable := .null
    LandingPage := .null
    ImagePreviewUrl := .null
    CreatedAt := .null
    UpdatedAt := .null }

/-- Resolution of one provider configuration field: default to the
environment variable, overridden by the configuration value when that value
is not null. -/
def resolveConfigValue (cfg : TFString) (env : String) : String :=
  if cfg.isNull then env else cfg.valueString

/-- Outcome of provider configuration, up to the construction of the shared
client: unknown-value errors, per-field missing-value errors, or the
resolved credentials with which the client is built (the subsequent
verification call is outside this model). -/
inductive ConfigureOutcome where
  | unknownConfigError : List String → ConfigureOutcome
  | missingValueError : List String → ConfigureOutcome
  | clientReady : String → String → ConfigureOutcome
deriving DecidableEq

/-- `pocinfobipemailsProvider.Configure`: reject unknown configuration
values (per-field), resolve each field from configuration or environment,
then reject empty resolved values (per-field) before building the client. -/
def pocinfobipemailsProvider.Configure (cfgBaseUrl cfgApiKey : TFString)
    (envBaseUrl envApiKey : String) : ConfigureOutcome :=
  let unknownFields :=
    (if cfgBaseUrl.isUnknown then ["base_url"] else []) ++
    (if cfgApiKey.isUnknown then ["api_key"] else [])
  if unknownFields ≠ [] then .unknownConfigError unknownFields
  else
    let base_url := resolveConfigValue cfgBaseUrl envBaseUrl
    let api_key := resolveConfigValue cfgApiKey envApiKey
    let missingFields :=
      (if base_url = "" then ["base_url"] else []) ++
      (if api_key = "" then ["api_key"] else [])
    if missingFields ≠ [] then .missingValueError missingFields
    else .clientReady base_url api_key

/-- One inter-tag-whitespace deletion: a whitespace run lying directly
between a `>` and a following `<` is removed.  Two strings differ only in
inter-tag whitespace when they are related by the equivalence closure of
this step. -/
inductive interTagStep : List Char → List Char → Prop where
  | deleteRun (u v w : List Char) (hw : ∀ c ∈ w, goIsSpace c = true) :
      interTagStep (u ++ '>' :: (w ++ '<' :: v)) (u ++ '>' :: '<' :: v)

/-! Theorems.  First a few helper lemmas about the `%d` scan, then the
claim theorems for the lifecycle handlers and provider configuration. -/

/-- The `%d` parse yields the zero value when the input does not start with
an optionally signed digit. -/
theorem sscanfParseInt_eq_zero (t : List Char)
    (h : startsWithSignedDigit t = false) : sscanfParseInt t = 0 := by
  cases t with
  | nil => rfl
  | cons c r =>
    by_cases hm : c = '-' ∨ c = '+'
    · cases r with
      | nil =>
        rcases hm with h1 | h1 <;> subst h1 <;> rfl
      | cons c2 r2 =>
        have hd : c2.isDigit = false := by
          simpa [startsWithSignedDigit, hm] using h
        rcases hm with h1 | h1 <;> subst h1 <;>
          simp [sscanfParseInt, hd, List.takeWhile_cons]
    · push_neg at hm
      have hd : c.isDigit = false := by
        simpa [startsWithSignedDigit, hm] using h
      simp [sscanfParseInt, hm.1, hm.2, hd, List.takeWhile_cons]

/-- The ignored `%d` scan leaves the id at the zero value whenever it finds
no signed digit. -/
theorem sscanfD_eq_zero (s : String) (h : sscanfFindsDigit s = false) :
    sscanfD s = 0 := by
  unfold sscanfD
  unfold sscanfFindsDigit at h
  cases hsk : sscanfSkipSpace s.data with
  | none => rfl
  | some t =>
    rw [hsk] at h
    exact sscanfParseInt_eq_zero t h

/-- C1: the claim says a failed Create writes no local state.  Evaluating
`Create` at a failed remote call (error flag set, zero-valued response
struct) shows the code adds the error diagnostic and nevertheless writes
state, with `id` set to `"0"`: the error branch is missing the early
`return` that `Read`, `Update` and `Delete` all have, so the mapped
zero-valued response is committed. -/
theorem c1_create_failure_writes_state :
    (EmailTemplateResource.Create (EmailTemplateResource.ImportState "x")
        ⟨zeroApiModel, true⟩ "now").diagnostics = ["Error Creating Email Template"] ∧
    ∃ m, (EmailTemplateResource.Create (EmailTemplateResource.ImportState "x")
        ⟨zeroApiModel, true⟩ "now").state = some m ∧ m.ID = TFString.known "0" := by
  refine ⟨rfl, ⟨_, rfl, ?_⟩⟩
  decide

/-- C2: the diff-suppression plan modifier overrides the planned value with
the stored value exactly when both are non-null and normalise equally, and
leaves the planned value unchanged when either is null. -/
theorem c2_plan_modifier_suppression (sv pv : TFString) :
    (sv.isNull = false → pv.isNull = false →
      planModifierNormalize sv.valueString = planModifierNormalize pv.valueString →
      PlanModifyString sv pv = sv) ∧
    (sv.isNull = true ∨ pv.isNull = true → PlanModifyString sv pv = pv) := by
  constructor
  · intro h1 h2 h3
    simp [PlanModifyString, h1, h2, h3]
  · intro h
    rcases h with h | h <;> simp [PlanModifyString, h]

/-- Witness for C2, at the specification's own example pair: the stored
compact HTML and the planned pretty-printed HTML normalise equally, so the
stored value is retained; and a null stored value suppresses nothing. -/
theorem c2_witness :
    PlanModifyString
      (.known "<html><head></head><body><h2>Welcome</h2></body></html>")
      (.known "<html>\n  <head></head>\n  <body><h2>Welcome</h2></body>\n</html>") =
      .known "<html><head></head><body><h2>Welcome</h2></body></html>" ∧
    PlanModifyString .null (.known "x") = .known "x" := by
  constructor
  · apply (c2_plan_modifier_suppression
        (.known "<html><head></head><body><h2>Welcome</h2></body></html>")
        (.known "<html>\n  <head></head>\n  <body><h2>Welcome</h2></body>\n</html>")).1
        rfl rfl
    simp +decide [planModifierNormalize, fields, collapseTagsP, joinSp,
      trimSpace, trimRight, replaceCRLF]
  · exact (c2_plan_modifier_suppression .null (.known "x")).2 (Or.inl rfl)

/-- C3: a successful Update preserves a non-empty prior `createdAt`
unchanged, stamps `createdAt` with the current time otherwise, and always
stamps `updatedAt` with the current local time, regardless of what the
remote response carries. -/
theorem c3_update_timestamps (plan state : EmailTemplateResourceModel)
    (remote : ApiCallResult) (now : String) (hok : remote.err = false) :
    (EmailTemplateResource.Update plan state remote now).state.isSome = true ∧
    (state.CreatedAt.valueString ≠ "" →
      (EmailTemplateResource.Update plan state remote now).state.map
        (fun m => m.CreatedAt) = some state.CreatedAt) ∧
    (state.CreatedAt.valueString = "" →
      (EmailTemplateResource.Update plan state remote now).state.map
        (fun m => m.CreatedAt) = some (TFString.known now)) ∧
    (EmailTemplateResource.Update plan state remote now).state.map
      (fun m => m.UpdatedAt) = some (TFString.known now) := by
  unfold EmailTemplateResource.Update
  rw [hok]
  by_cases hc : state.CreatedAt.valueString = "" <;> simp [hc]

/-- Witness for C3 at a stored `createdAt` of "2020-01-01..." and a remote
response lacking timestamps. -/
theorem c3_witness :
    (EmailTemplateResource.Update (EmailTemplateResource.ImportState "1")
      { EmailTemplateResource.ImportState "1" with
        CreatedAt := TFString.known "2020-01-01T00:00:00Z" }
      ⟨zeroApiModel, false⟩ "2026-10-11").state.map
        (fun m => m.CreatedAt) = some (TFString.known "2020-01-01T00:00:00Z") ∧
    (EmailTemplateResource.Update (EmailTemplateResource.ImportState "1")
      { EmailTemplateResource.ImportState "1" with
        CreatedAt := TFString.known "2020-01-01T00:00:00Z" }
      ⟨zeroApiModel, false⟩ "2026-10-11").state.map
        (fun m => m.UpdatedAt) = some (TFString.known "2026-10-11") := by
  have h := c3_update_timestamps (EmailTemplateResource.ImportState "1")
    { EmailTemplateResource.ImportState "1" with
      CreatedAt := TFString.known "2020-01-01T00:00:00Z" }
    ⟨zeroApiModel, false⟩ "2026-10-11" rfl
  exact ⟨h.2.1 (by decide), h.2.2.2⟩

/-- C4: a Delete whose remote call reports HTTP 404 removes local state
with no diagnostic; any other Delete failure reports an error and retains
local state. -/
theorem c4_delete_not_found (data : EmailTemplateResourceModel)
    (remote : DeleteCallResult) :
    (remote.httpStatus = some 404 →
      (EmailTemplateResource.Delete data remote).stateRemoved = true ∧
      (EmailTemplateResource.Delete data remote).diagnostics = []) ∧
    (remote.err = true → remote.httpStatus ≠ some 404 →
      (EmailTemplateResource.Delete data remote).diagnostics ≠ [] ∧
      (EmailTemplateResource.Delete data remote).stateRemoved = false) := by
  unfold EmailTemplateResource.Delete
  constructor
  · intro h404
    by_cases he : remote.err <;> simp [he, h404]
  · intro herr h404
    simp [herr, h404]

/-- Witness for C4: a 404 delete removes state silently; a 500 delete
errors and retains state. -/
theorem c4_witness :
    ((EmailTemplateResource.Delete (EmailTemplateResource.ImportState "7")
        ⟨some 404, true⟩).stateRemoved = true ∧
      (EmailTemplateResource.Delete (EmailTemplateResource.ImportState "7")
        ⟨some 404, true⟩).diagnostics = []) ∧
    ((EmailTemplateResource.Delete (EmailTemplateResource.ImportState "8")
        ⟨some 500, true⟩).diagnostics ≠ [] ∧
      (EmailTemplateResource.Delete (EmailTemplateResource.ImportState "8")
        ⟨some 500, true⟩).stateRemoved = false) :=
  ⟨(c4_delete_not_found _ _).1 rfl,
   (c4_delete_not_found _ _).2 rfl (by decide)⟩

/-- C8: each provider credential resolves to the explicit configuration
value when set (even when explicitly empty), and to the environment value
only when the configuration value is null; an empty resolved value fails
configuration with a per-field error before any client is built. -/
theorem c8_configure_resolution (cb ck : TFString) (eb ek : String)
    (hb : cb.isUnknown = false) (hk : ck.isUnknown = false) :
    (∀ s, cb = .known s → resolveConfigValue cb eb = s) ∧
    (cb = .null → resolveConfigValue cb eb = eb) ∧
    (∀ s, ck = .known s → resolveConfigValue ck ek = s) ∧
    (ck = .null → resolveConfigValue ck ek = ek) ∧
    (resolveConfigValue cb eb = "" ∨ resolveConfigValue ck ek = "" →
      pocinfobipemailsProvider.Configure cb ck eb ek = .missingValueError
        ((if resolveConfigValue cb eb = "" then ["base_url"] else []) ++
         (if resolveConfigValue ck ek = "" then ["api_key"] else []))) ∧
    (resolveConfigValue cb eb ≠ "" → resolveConfigValue ck ek ≠ "" →
      pocinfobipemailsProvider.Configure cb ck eb ek =
        .clientReady (resolveConfigValue cb eb) (resolveConfigValue ck ek)) := by
  refine ⟨?_, ?_, ?_, ?_, ?_, ?_⟩
  · intro s hs
    subst hs
    rfl
  · intro hs
    subst hs
    rfl
  · intro s hs
    subst hs
    rfl
  · intro hs
    subst hs
    rfl
  · intro hmiss
    unfold pocinfobipemailsProvider.Configure
    rw [hb, hk]
    rcases hmiss with hm | hm <;> simp [hm]
  · intro hb2 hk2
    unfold pocinfobipemailsProvider.Configure
    rw [hb, hk]
    simp [hb2, hk2]

/-- Witness for C8: an explicitly empty `base_url` does not fall back to a
non-empty environment value and fails per-field; fully resolved values
yield a ready client. -/
theorem c8_witness :
    resolveConfigValue (.known "") "https://env.example" = "" ∧
    pocinfobipemailsProvider.Configure (.known "") (.known "key")
      "https://env.example" "envkey" = .missingValueError ["base_url"] ∧
    pocinfobipemailsProvider.Configure .null (.known "key")
      "https://env.example" "envkey" =
      .clientReady "https://env.example" "key" := by
  refine ⟨?_, ?_, ?_⟩
  · exact (c8_configure_resolution (.known "") (.known "key")
      "https://env.example" "envkey" rfl rfl).1 "" rfl
  · have h := (c8_configure_resolution (.known "") (.known "key")
      "https://env.example" "envkey" rfl rfl).2.2.2.2.1 (Or.inl rfl)
    simpa using h
  · have h := (c8_configure_resolution .null (.known "key")
      "https://env.example" "envkey" rfl rfl).2.2.2.2.2 (by decide) (by decide)
    simpa using h

/-- C9: the normalisation function defined inline inside the plan modifier
and the top-level `normalizeHTML` are extensionally equal. -/
theorem c9_inline_normalize_eq (s : String) :
    planModifierNormalize s = normalizeHTML s := rfl

/-- C10 counterexample: the id `" 123"` does not begin with a decimal
integer, yet the ignored `%d` scan skips the leading space and parses 123,
so the remote call addresses template 123, not 0. -/
theorem c10_counterexample :
    startsWithSignedDigit (" 123".data) = false ∧
    sscanfD " 123" = 123 ∧
    (EmailTemplateResource.Delete (EmailTemplateResource.ImportState " 123")
      ⟨none, false⟩).requestedId = 123 := by
  refine ⟨by decide, by decide, by decide⟩

/-- C10 (amended): for every state whose id string gives the `%d` scan no
optionally-signed digit to consume (after `fmt`'s whitespace skipping, or
because a newline aborts that skipping), the id-parsing step of Read,
Update and Delete reports no error, the parsed integer defaults to 0, and
the remote call addresses the template with integer id 0. -/
theorem c10_id_parse_defaults_zero (m plan : EmailTemplateResourceModel)
    (remote : ApiCallResult) (remoteD : DeleteCallResult) (now : String)
    (h : sscanfFindsDigit m.ID.valueString = false)
    (hre : remote.err = false) (hrd : remoteD.err = false) :
    sscanfD m.ID.valueString = 0 ∧
    (EmailTemplateResource.Read m remote).requestedId = 0 ∧
    (EmailTemplateResource.Read m remote).diagnostics = [] ∧
    (EmailTemplateResource.Update plan m remote now).requestedId = 0 ∧
    (EmailTemplateResource.Update plan m remote now).diagnostics = [] ∧
    (EmailTemplateResource.Delete m remoteD).requestedId = 0 ∧
    (EmailTemplateResource.Delete m remoteD).diagnostics = [] := by
  have h0 := sscanfD_eq_zero _ h
  unfold EmailTemplateResource.Read EmailTemplateResource.Update
    EmailTemplateResource.Delete
  rw [hre, hrd]
  simp [h0]

/-- Witness for C10 (amended), at the verbatim imported id `"abc-123"`. -/
theorem c10_witness :
    sscanfD (EmailTemplateResource.ImportState "abc-123").ID.valueString = 0 ∧
    (EmailTemplateResource.Read (EmailTemplateResource.ImportState "abc-123")
      ⟨zeroApiModel, false⟩).requestedId = 0 ∧
    (EmailTemplateResource.Read (EmailTemplateResource.ImportState "abc-123")
      ⟨zeroApiModel, false⟩).diagnostics = [] ∧
    (EmailTemplateResource.Update (EmailTemplateResource.ImportState "abc-123")
      (EmailTemplateResource.ImportState "abc-123")
      ⟨zeroApiModel, false⟩ "T").requestedId = 0 ∧
    (EmailTemplateResource.Update (EmailTemplateResource.ImportState "abc-123")
      (EmailTemplateResource.ImportState "abc-123")
      ⟨zeroApiModel, false⟩ "T").diagnostics = [] ∧
    (EmailTemplateResource.Delete (EmailTemplateResource.ImportState "abc-123")
      ⟨none, false⟩).requestedId = 0 ∧
    (EmailTemplateResource.Delete (EmailTemplateResource.ImportState "abc-123")
      ⟨none, false⟩).diagnostics = [] :=
  c10_id_parse_defaults_zero (EmailTemplateResource.ImportState "abc-123")
    (EmailTemplateResource.ImportState "abc-123") ⟨zeroApiModel, false⟩
    ⟨none, false⟩ "T" (by decide) rfl rfl

/-! Generic lemmas about `takeWhile`, `dropWhile` and chains, used by the
normalisation development. -/

theorem dropWhile_append_all {α : Type} {p : α → Bool} {a : List α} (b : List α)
    (h : ∀ x ∈ a, p x = true) : (a ++ b).dropWhile p = b.dropWhile p := by
  induction a with
  | nil => rfl
  | cons c a ih =>
    rw [List.cons_append, List.dropWhile_cons_of_pos (h c (by simp))]
    exact ih (fun x hx => h x (by simp [hx]))

theorem takeWhile_append_all {α : Type} {p : α → Bool} {a : List α} (b : List α)
    (h : ∀ x ∈ a, p x = true) : (a ++ b).takeWhile p = a ++ b.takeWhile p := by
  induction a with
  | nil => rfl
  | cons c a ih =>
    rw [List.cons_append, List.takeWhile_cons_of_pos (h c (by simp)),
      ih (fun x hx => h x (by simp [hx])), List.cons_append]

theorem dropWhile_append_stop {α : Type} {p : α → Bool} {a : List α} (b : List α)
    (h : a.dropWhile p ≠ []) : (a ++ b).dropWhile p = a.dropWhile p ++ b := by
  cases hd : a.dropWhile p with
  | nil => exact absurd hd h
  | cons x xs => simp [List.dropWhile_append, hd]

theorem takeWhile_append_stop {α : Type} {p : α → Bool} {a : List α} (b : List α)
    (h : a.dropWhile p ≠ []) : (a ++ b).takeWhile p = a.takeWhile p := by
  rw [List.takeWhile_append]
  rw [if_neg]
  intro hlen
  apply h
  have h2 := congrArg List.length (List.takeWhile_append_dropWhile p a)
  rw [List.length_append, hlen] at h2
  have h3 : (a.dropWhile p).length = 0 := by omega
  simpa using h3

theorem dropWhile_congr_chars {α : Type} {p q : α → Bool} {l : List α}
    (h : ∀ x ∈ l, p x = q x) : l.dropWhile p = l.dropWhile q := by
  induction l with
  | nil => rfl
  | cons c t ih =>
    have hc := h c (by simp)
    by_cases hp : p c = true
    · rw [List.dropWhile_cons_of_pos hp, List.dropWhile_cons_of_pos (hc ▸ hp)]
      exact ih fun x hx => h x (by simp [hx])
    · rw [List.dropWhile_cons_of_neg hp, List.dropWhile_cons_of_neg (hc ▸ hp)]

theorem head?_dropWhile_false {α : Type} {p : α → Bool} {l : List α} {c : α}
    (h : (l.dropWhile p).head? = some c) : p c = false := by
  have h2 := List.head?_dropWhile_not p l
  rw [h] at h2
  exact h2

theorem takeWhile_all_true {α : Type} {p : α → Bool} {l : List α} :
    ∀ x ∈ l.takeWhile p, p x = true := by
  intro x hx
  exact List.mem_takeWhile_imp hx

theorem chain'_append_right {α : Type} {R : α → α → Prop} {a b : List α}
    (h : List.Chain' R (a ++ b)) : List.Chain' R b := by
  induction a with
  | nil => exact h
  | cons c a ih => exact ih h.tail

theorem takeWhile_all_eq_self {α : Type} {p : α → Bool} {l : List α}
    (h : ∀ x ∈ l, p x = true) : l.takeWhile p = l := by
  induction l with
  | nil => rfl
  | cons c t ih =>
    rw [List.takeWhile_cons_of_pos (h c (by simp))]
    rw [ih (fun x hx => h x (by simp [hx]))]

/-! Lemmas about whitespace predicates. -/

theorem regexSpace_imp_goIsSpace {c : Char} (h : regexSpace c = true) :
    goIsSpace c = true := by
  unfold regexSpace at h
  unfold goIsSpace
  simp only [Bool.or_eq_true, decide_eq_true_eq, Bool.and_eq_true] at h ⊢
  omega

/-! Basic equations and facts for `fields`. -/

theorem fields_nil : fields [] = [] := by rw [fields]

theorem fields_cons_of_ws {c : Char} {rest : List Char} (h : goIsSpace c = true) :
    fields (c :: rest) = fields rest := by
  rw [fields, if_pos h]

theorem fields_cons_of_token {c : Char} {rest : List Char} (h : goIsSpace c = false) :
    fields (c :: rest) =
      (c :: rest.takeWhile (fun x => !goIsSpace x)) ::
        fields (rest.dropWhile (fun x => !goIsSpace x)) := by
  rw [fields, if_neg (by simp [h])]

theorem fields_eq_nil (s : List Char) (h : ∀ c ∈ s, goIsSpace c = true) :
    fields s = [] := by
  match s with
  | [] => exact fields_nil
  | c :: rest =>
    rw [fields_cons_of_ws (h c (by simp))]
    exact fields_eq_nil rest (fun x hx => h x (by simp [hx]))
termination_by s.length
decreasing_by simp

theorem fields_ws_front {w : List Char} (s : List Char)
    (hw : ∀ c ∈ w, goIsSpace c = true) : fields (w ++ s) = fields s := by
  induction w with
  | nil => rfl
  | cons c w ih =>
    rw [List.cons_append, fields_cons_of_ws (hw c (by simp))]
    exact ih (fun x hx => hw x (by simp [hx]))

theorem fields_token_prop (s : List Char) :
    ∀ t ∈ fields s, t ≠ [] ∧ ∀ c ∈ t, goIsSpace c = false := by
  match s with
  | [] =>
    rw [fields_nil]
    simp
  | c :: rest =>
    by_cases hc : goIsSpace c = true
    · rw [fields_cons_of_ws hc]
      exact fields_token_prop rest
    · rw [fields_cons_of_token (by simpa using hc)]
      intro t ht
      rcases List.mem_cons.mp ht with h1 | h1
      · subst h1
        refine ⟨by simp, ?_⟩
        intro x hx
        rcases List.mem_cons.mp hx with h2 | h2
        · subst h2
          simpa using hc
        · have h3 := List.mem_takeWhile_imp h2
          simpa using h3
      · exact fields_token_prop (rest.dropWhile (fun x => !goIsSpace x)) t h1
termination_by s.length
decreasing_by
  · simp
  · have := (@List.dropWhile_sublist Char rest (fun x => !goIsSpace x)).length_le
    simp
    omega

theorem all_ws_of_fields_eq_nil (s : List Char) (h : fields s = []) :
    ∀ c ∈ s, goIsSpace c = true := by
  match s with
  | [] => simp
  | c :: rest =>
    by_cases hc : goIsSpace c = true
    · rw [fields_cons_of_ws hc] at h
      intro x hx
      rcases List.mem_cons.mp hx with h1 | h1
      · subst h1
        exact hc
      · exact all_ws_of_fields_eq_nil rest h x h1
    · rw [fields_cons_of_token (by simpa using hc)] at h
      exact absurd h (by simp)
termination_by s.length
decreasing_by simp

theorem fields_append_ws_suffix (s : List Char) {w : List Char}
    (hw : ∀ c ∈ w, goIsSpace c = true) : fields (s ++ w) = fields s := by
  match s with
  | [] =>
    rw [List.nil_append, fields_nil]
    exact fields_eq_nil w hw
  | c :: rest =>
    by_cases hc : goIsSpace c = true
    · rw [List.cons_append, fields_cons_of_ws hc, fields_cons_of_ws hc]
      exact fields_append_ws_suffix rest hw
    · have hc' : goIsSpace c = false := by simpa using hc
      rw [List.cons_append, fields_cons_of_token hc', fields_cons_of_token hc']
      by_cases hd : rest.dropWhile (fun x => !goIsSpace x) = []
      · have hall : ∀ x ∈ rest, (fun x => !goIsSpace x) x = true := by
          rw [← List.dropWhile_eq_nil_iff]
          exact hd
        rw [takeWhile_append_all w hall, dropWhile_append_all w hall, hd]
        have hwtake : w.takeWhile (fun x => !goIsSpace x) = [] := by
          cases w with
          | nil => rfl
          | cons d w2 =>
            rw [List.takeWhile_cons_of_neg]
            simp [hw d (by simp)]
        have hwdrop : w.dropWhile (fun x => !goIsSpace x) = w := by
          cases w with
          | nil => rfl
          | cons d w2 =>
            rw [List.dropWhile_cons_of_neg]
            simp [hw d (by simp)]
        rw [hwtake, hwdrop, List.append_nil, fields_eq_nil w hw, fields_nil,
          takeWhile_all_eq_self hall]
      · rw [takeWhile_append_stop w hd, dropWhile_append_stop w hd]
        rw [fields_append_ws_suffix (rest.dropWhile (fun x => !goIsSpace x)) hw]
termination_by s.length
decreasing_by
  · simp
  · have := (@List.dropWhile_sublist Char rest (fun x => !goIsSpace x)).length_le
    simp
    omega

theorem fields_dropWhile_ws (s : List Char) :
    fields (s.dropWhile goIsSpace) = fields s := by
  conv_rhs => rw [← List.takeWhile_append_dropWhile goIsSpace s]
  rw [fields_ws_front (s.dropWhile goIsSpace) (fun c hc => List.mem_takeWhile_imp hc)]

theorem trimRight_decomp (y : List Char) :
    ∃ w, (∀ c ∈ w, goIsSpace c = true) ∧ y = trimRight y ++ w := by
  refine ⟨(y.reverse.takeWhile goIsSpace).reverse, ?_, ?_⟩
  · intro c hc
    rw [List.mem_reverse] at hc
    exact List.mem_takeWhile_imp hc
  · unfold trimRight
    conv_lhs => rw [← List.reverse_reverse y,
      ← List.takeWhile_append_dropWhile goIsSpace y.reverse]
    rw [List.reverse_append]

theorem fields_trimSpace (s : List Char) : fields (trimSpace s) = fields s := by
  unfold trimSpace
  obtain ⟨w, hw, hy⟩ := trimRight_decomp (s.dropWhile goIsSpace)
  have h1 : fields (s.dropWhile goIsSpace) = fields (trimRight (s.dropWhile goIsSpace)) := by
    conv_lhs => rw [hy]
    exact fields_append_ws_suffix _ hw
  rw [← h1, fields_dropWhile_ws]

/-! `replaceCRLF` commutes with the token structure. -/

theorem takeWhile_nonws_replaceCRLF (s : List Char) :
    (replaceCRLF s).takeWhile (fun x => !goIsSpace x) =
      s.takeWhile (fun x => !goIsSpace x) := by
  match s with
  | [] => rfl
  | [c] => rfl
  | c :: c2 :: rest =>
    by_cases h : c = '\r' ∧ c2 = '\n'
    · obtain ⟨h1, h2⟩ := h
      subst h1; subst h2
      rw [replaceCRLF, if_pos ⟨rfl, rfl⟩]
      rw [List.takeWhile_cons_of_neg (by decide), List.takeWhile_cons_of_neg (by decide)]
    · rw [replaceCRLF, if_neg h]
      by_cases hc : goIsSpace c = true
      · rw [List.takeWhile_cons_of_neg (by simp [hc]),
          List.takeWhile_cons_of_neg (by simp [hc])]
      · rw [List.takeWhile_cons_of_pos (by simpa using hc),
          List.takeWhile_cons_of_pos (by simpa using hc),
          takeWhile_nonws_replaceCRLF (c2 :: rest)]
termination_by s.length
decreasing_by simp

theorem dropWhile_nonws_replaceCRLF (s : List Char) :
    (replaceCRLF s).dropWhile (fun x => !goIsSpace x) =
      replaceCRLF (s.dropWhile (fun x => !goIsSpace x)) := by
  match s with
  | [] => rfl
  | [c] =>
    by_cases hc : goIsSpace c = true <;>
      simp [replaceCRLF, List.dropWhile_cons, hc]
  | c :: c2 :: rest =>
    by_cases h : c = '\r' ∧ c2 = '\n'
    · obtain ⟨h1, h2⟩ := h
      subst h1; subst h2
      rw [replaceCRLF, if_pos ⟨rfl, rfl⟩]
      rw [List.dropWhile_cons_of_neg (by decide), List.dropWhile_cons_of_neg (by decide)]
      rw [replaceCRLF, if_pos ⟨rfl, rfl⟩]
    · rw [replaceCRLF, if_neg h]
      by_cases hc : goIsSpace c = true
      · rw [List.dropWhile_cons_of_neg (by simp [hc]),
          List.dropWhile_cons_of_neg (by simp [hc]),
          replaceCRLF, if_neg h]
      · rw [List.dropWhile_cons_of_pos (by simpa using hc),
          List.dropWhile_cons_of_pos (by simpa using hc),
          dropWhile_nonws_replaceCRLF (c2 :: rest)]
termination_by s.length
decreasing_by simp

theorem fields_replaceCRLF (s : List Char) : fields (replaceCRLF s) = fields s := by
  match s with
  | [] => rfl
  | [c] => rfl
  | c :: c2 :: rest =>
    by_cases h : c = '\r' ∧ c2 = '\n'
    · obtain ⟨h1, h2⟩ := h
      subst h1; subst h2
      rw [replaceCRLF, if_pos ⟨rfl, rfl⟩]
      rw [fields_cons_of_ws (by decide), fields_cons_of_ws (by decide),
        fields_cons_of_ws (by decide)]
      exact fields_replaceCRLF rest
    · rw [replaceCRLF, if_neg h]
      by_cases hc : goIsSpace c = true
      · rw [fields_cons_of_ws hc, fields_cons_of_ws hc]
        exact fields_replaceCRLF (c2 :: rest)
      · have hc' : goIsSpace c = false := by simpa using hc
        rw [fields_cons_of_token hc', fields_cons_of_token hc',
          takeWhile_nonws_replaceCRLF, dropWhile_nonws_replaceCRLF,
          fields_replaceCRLF ((c2 :: rest).dropWhile (fun x => !goIsSpace x))]
termination_by s.length
decreasing_by
  · simp only [List.length_cons]
    omega
  · simp only [List.length_cons]
    omega
  · have := (@List.dropWhile_sublist Char (c2 :: rest) (fun x => !goIsSpace x)).length_le
    simp only [List.length_cons] at this ⊢
    omega

/-- `normalizeHTML` depends on the input only through its `fields`. -/
theorem normalizeHTMLList_eq_of_fields (s : List Char) :
    normalizeHTMLList s = collapseTagsP regexSpace (joinSp (fields s)) := by
  unfold normalizeHTMLList
  rw [fields_trimSpace, fields_replaceCRLF]

/-! Lemmas about `joinSp` and ends of lists. -/

theorem getLast?_mem {α : Type} : ∀ {l : List α} {x : α}, l.getLast? = some x → x ∈ l := by
  intro l
  induction l with
  | nil => intro x h; cases h
  | cons c t ih =>
    intro x h
    cases t with
    | nil =>
      simp only [List.getLast?_singleton, Option.some.injEq] at h
      simp [h]
    | cons d r =>
      rw [List.getLast?_cons_cons] at h
      exact List.mem_cons_of_mem c (ih h)

theorem getLast?_cons_some {α : Type} (c : α) (l : List α) :
    ∃ x, (c :: l).getLast? = some x := by
  induction l generalizing c with
  | nil => exact ⟨c, rfl⟩
  | cons d r ih =>
    rw [List.getLast?_cons_cons]
    exact ih d

theorem getLast?_cons_ne {α : Type} {c : α} {l : List α} (h : l ≠ []) :
    (c :: l).getLast? = l.getLast? := by
  cases l with
  | nil => exact absurd rfl h
  | cons d r => exact List.getLast?_cons_cons

theorem getLast?_append_ne {α : Type} {y : List α} (x : List α) (h : y ≠ []) :
    (x ++ y).getLast? = y.getLast? := by
  induction x with
  | nil => rfl
  | cons c x ih =>
    rw [List.cons_append, getLast?_cons_ne, ih]
    intro hx
    rcases List.append_eq_nil.mp hx with ⟨h1, h2⟩
    exact h h2

theorem head?_append_ne {α : Type} {x : List α} (y : List α) (h : x ≠ []) :
    (x ++ y).head? = x.head? := by
  cases x with
  | nil => exact absurd rfl h
  | cons c t => rfl

theorem joinSp_nil : joinSp [] = [] := rfl

theorem joinSp_single (x : List Char) : joinSp [x] = x := rfl

theorem joinSp_cons (x : List Char) {l : List (List Char)} (h : l ≠ []) :
    joinSp (x :: l) = x ++ ' ' :: joinSp l := by
  match l with
  | [] => exact absurd rfl h
  | y :: r => rfl

theorem mem_joinSp (l : List (List Char)) (c : Char) (hc : c ∈ joinSp l) :
    c = ' ' ∨ ∃ t ∈ l, c ∈ t := by
  induction l with
  | nil => cases hc
  | cons x l ih =>
    cases l with
    | nil =>
      right
      exact ⟨x, by simp, hc⟩
    | cons y r =>
      rw [joinSp_cons x (by simp)] at hc
      rcases List.mem_append.mp hc with h1 | h1
      · right
        exact ⟨x, by simp, h1⟩
      · rcases List.mem_cons.mp h1 with h2 | h2
        · left
          exact h2
        · rcases ih h2 with h3 | ⟨t, ht, hct⟩
          · left
            exact h3
          · right
            exact ⟨t, List.mem_cons_of_mem x ht, hct⟩

/-- Every whitespace character of `strings.Join(strings.Fields(s), " ")` is
the plain space character. -/
theorem joinSp_fields_ws_eq_space (s : List Char) {c : Char}
    (hc : c ∈ joinSp (fields s)) (hws : goIsSpace c = true) : c = ' ' := by
  rcases mem_joinSp _ c hc with h | ⟨t, ht, hct⟩
  · exact h
  · have h2 := (fields_token_prop s t ht).2 c hct
    rw [h2] at hws
    cases hws

/-! Equations and congruence for the regex replacement scan. -/

theorem collapseTagsP_nil (p : Char → Bool) : collapseTagsP p [] = [] := by
  rw [collapseTagsP]

theorem collapseTagsP_cons_match {p : Char → Bool} {c : Char} {rest : List Char}
    (h : c = '>' ∧ (rest.dropWhile p).head? = some '<') :
    collapseTagsP p (c :: rest) =
      '>' :: '<' :: collapseTagsP p (rest.dropWhile p).tail := by
  rw [collapseTagsP, if_pos h]

theorem collapseTagsP_cons_nomatch {p : Char → Bool} {c : Char} {rest : List Char}
    (h : ¬(c = '>' ∧ (rest.dropWhile p).head? = some '<')) :
    collapseTagsP p (c :: rest) = c :: collapseTagsP p rest := by
  rw [collapseTagsP, if_neg h]

theorem collapseTagsP_congr (p q : Char → Bool) (s : List Char)
    (h : ∀ c ∈ s, p c = q c) : collapseTagsP p s = collapseTagsP q s := by
  match s with
  | [] => rw [collapseTagsP_nil, collapseTagsP_nil]
  | c :: rest =>
    have hdw : rest.dropWhile p = rest.dropWhile q :=
      dropWhile_congr_chars (fun x hx => h x (by simp [hx]))
    by_cases hm : c = '>' ∧ (rest.dropWhile p).head? = some '<'
    · have hm' : c = '>' ∧ (rest.dropWhile q).head? = some '<' := by
        rw [← hdw]
        exact hm
      rw [collapseTagsP_cons_match hm, collapseTagsP_cons_match hm', hdw]
      have hsub : ∀ x ∈ (rest.dropWhile q).tail, x ∈ rest := by
        intro x hx
        exact (List.dropWhile_sublist q).subset ((List.tail_sublist _).subset hx)
      rw [collapseTagsP_congr p q (rest.dropWhile q).tail
        (fun x hx => h x (by simp [hsub x hx]))]
    · have hm' : ¬(c = '>' ∧ (rest.dropWhile q).head? = some '<') := by
        rw [← hdw]
        exact hm
      rw [collapseTagsP_cons_nomatch hm, collapseTagsP_cons_nomatch hm',
        collapseTagsP_congr p q rest (fun x hx => h x (by simp [hx]))]
termination_by s.length
decreasing_by
  · have h1 := (@List.dropWhile_sublist Char rest q).length_le
    have h2 : rest.dropWhile q ≠ [] := by
      intro hh
      rw [hh] at hm'
      simp at hm'
    have h3 : (rest.dropWhile q).length ≠ 0 := by
      simpa using h2
    simp only [List.length_tail, List.length_cons]
    omega
  · simp

/-! Equations for the specification's run-collapsing step. -/

theorem specCollapseRuns_nil : specCollapseRuns [] = [] := by
  rw [specCollapseRuns]

theorem specCollapseRuns_cons_ws {c : Char} {rest : List Char}
    (h : goIsSpace c = true) :
    specCollapseRuns (c :: rest) =
      ' ' :: specCollapseRuns (rest.dropWhile goIsSpace) := by
  rw [specCollapseRuns, if_pos h]

theorem specCollapseRuns_cons_tok {c : Char} {rest : List Char}
    (h : goIsSpace c = false) :
    specCollapseRuns (c :: rest) = c :: specCollapseRuns rest := by
  rw [specCollapseRuns, if_neg (by simp [h])]

theorem specCollapseRuns_nonws_front {T : List Char} (rest : List Char)
    (hT : ∀ c ∈ T, goIsSpace c = false) :
    specCollapseRuns (T ++ rest) = T ++ specCollapseRuns rest := by
  induction T with
  | nil => rfl
  | cons c T ih =>
    rw [List.cons_append, specCollapseRuns_cons_tok (hT c (by simp)),
      ih (fun x hx => hT x (by simp [hx])), List.cons_append]

theorem specCollapseRuns_all_nonws {l : List Char}
    (h : ∀ c ∈ l, goIsSpace c = false) : specCollapseRuns l = l := by
  induction l with
  | nil => exact specCollapseRuns_nil
  | cons c t ih =>
    rw [specCollapseRuns_cons_tok (h c (by simp)),
      ih (fun x hx => h x (by simp [hx]))]

/-- On a string with no leading and no trailing whitespace,
`strings.Join(strings.Fields(u), " ")` coincides with the specification's
"collapse each whitespace run to one space". -/
theorem joinSp_fields_eq_specCollapseRuns (u : List Char)
    (h1 : ∀ c, u.head? = some c → goIsSpace c = false)
    (h2 : ∀ c, u.getLast? = some c → goIsSpace c = false) :
    joinSp (fields u) = specCollapseRuns u := by
  match u with
  | [] => rw [fields_nil, joinSp_nil, specCollapseRuns_nil]
  | c :: rest =>
    have hc : goIsSpace c = false := h1 c rfl
    rw [fields_cons_of_token hc, specCollapseRuns_cons_tok hc]
    have hrest : rest.takeWhile (fun x => !goIsSpace x) ++
        rest.dropWhile (fun x => !goIsSpace x) = rest :=
      List.takeWhile_append_dropWhile _ _
    have hT : ∀ x ∈ rest.takeWhile (fun x => !goIsSpace x), goIsSpace x = false := by
      intro x hx
      have h3 := List.mem_takeWhile_imp hx
      simpa using h3
    cases hD : rest.dropWhile (fun x => !goIsSpace x) with
    | nil =>
      rw [hD, List.append_nil] at hrest
      rw [fields_nil, joinSp_single]
      conv_rhs => rw [← hrest]
      rw [specCollapseRuns_all_nonws hT]
    | cons d D2 =>
      have hd : goIsSpace d = true := by
        have h3 : ((rest.dropWhile (fun x => !goIsSpace x)).head? = some d) := by
          rw [hD]
          rfl
        have h4 := head?_dropWhile_false h3
        simpa using h4
      have hrestne : rest ≠ [] := by
        intro hh
        rw [hh] at hD
        cases hD
      -- the last character of the whole string lives at the end of `d :: D2`
      have hlastD : ∀ x, (d :: D2).getLast? = some x → goIsSpace x = false := by
        intro x hx
        apply h2
        rw [getLast?_cons_ne hrestne, ← hrest, hD, getLast?_append_ne _ (by simp)]
        exact hx
      have hD2decomp : D2.takeWhile goIsSpace ++ D2.dropWhile goIsSpace = D2 :=
        List.takeWhile_append_dropWhile _ _
      -- the remainder after the whitespace run is non-empty
      have hE : D2.dropWhile goIsSpace ≠ [] := by
        intro hh
        have hallws : ∀ x ∈ d :: D2, goIsSpace x = true := by
          intro x hx
          rcases List.mem_cons.mp hx with h3 | h3
          · rw [h3]
            exact hd
          · exact List.dropWhile_eq_nil_iff.mp hh x h3
        obtain ⟨x, hx⟩ := getLast?_cons_some d D2
        have h5 := hlastD x hx
        rw [hallws x (getLast?_mem hx)] at h5
        cases h5
      have hD2ne : D2 ≠ [] := by
        intro hh
        rw [hh] at hE
        exact hE rfl
      -- conditions for the recursive call on the remainder
      have h1E : ∀ x, (D2.dropWhile goIsSpace).head? = some x → goIsSpace x = false :=
        fun x hx => head?_dropWhile_false hx
      have h2E : ∀ x, (D2.dropWhile goIsSpace).getLast? = some x →
          goIsSpace x = false := by
        intro x hx
        apply hlastD
        rw [getLast?_cons_ne hD2ne, ← hD2decomp, getLast?_append_ne _ hE]
        exact hx
      have hrec := joinSp_fields_eq_specCollapseRuns (D2.dropWhile goIsSpace) h1E h2E
      -- the fields of the remainder are non-empty
      have hfE : fields (D2.dropWhile goIsSpace) ≠ [] := by
        intro hh
        cases hEe : D2.dropWhile goIsSpace with
        | nil => exact hE hEe
        | cons e E2 =>
          have he : goIsSpace e = false := h1E e (by rw [hEe]; rfl)
          have h3 := all_ws_of_fields_eq_nil _ hh e (by rw [hEe]; simp)
          rw [he] at h3
          cases h3
      rw [fields_cons_of_ws hd, ← fields_dropWhile_ws D2,
        joinSp_cons _ hfE, hrec]
      conv_rhs => rw [← hrest, hD]
      rw [specCollapseRuns_nonws_front _ hT, specCollapseRuns_cons_ws hd,
        List.cons_append]
termination_by u.length
decreasing_by
  have ha := (@List.dropWhile_sublist Char rest (fun x => !goIsSpace x)).length_le
  have hb := congrArg List.length hD
  simp only [List.length_cons] at hb
  have hcc := (@List.dropWhile_sublist Char D2 goIsSpace).length_le
  simp only [List.length_cons]
  omega

/-! The trimmed string has no whitespace at either end. -/

theorem trimSpace_head_nonws (s : List Char) :
    ∀ c, (trimSpace s).head? = some c → goIsSpace c = false := by
  intro c hc
  unfold trimSpace at hc
  obtain ⟨w, hw, hy⟩ := trimRight_decomp (s.dropWhile goIsSpace)
  have hne : trimRight (s.dropWhile goIsSpace) ≠ [] := by
    intro hh
    rw [hh] at hc
    cases hc
  have h2 : (s.dropWhile goIsSpace).head? = some c := by
    rw [hy, head?_append_ne _ hne]
    exact hc
  exact head?_dropWhile_false h2

theorem trimSpace_getLast_nonws (s : List Char) :
    ∀ c, (trimSpace s).getLast? = some c → goIsSpace c = false := by
  intro c hc
  unfold trimSpace trimRight at hc
  rw [List.getLast?_reverse] at hc
  exact head?_dropWhile_false hc

/-- C5: `normalizeHTML` coincides, on every input, with the reference
normalisation that applies the specification's four steps in order: CRLF
to LF, trim, collapse whitespace runs to one space, then delete whitespace
directly between `>` and a following `<`. -/
theorem c5_normalize_matches_spec (s : String) :
    normalizeHTML s = specNormalizeHTML s := by
  unfold normalizeHTML specNormalizeHTML normalizeHTMLList
  congr 1
  rw [joinSp_fields_eq_specCollapseRuns (trimSpace (replaceCRLF s.data))
    (trimSpace_head_nonws _) (trimSpace_getLast_nonws _)]
  apply collapseTagsP_congr
  intro c hc
  rw [← joinSp_fields_eq_specCollapseRuns (trimSpace (replaceCRLF s.data))
    (trimSpace_head_nonws _) (trimSpace_getLast_nonws _)] at hc
  by_cases hws : goIsSpace c = true
  · have hsp := joinSp_fields_ws_eq_space _ hc hws
    subst hsp
    decide
  · have h3 : goIsSpace c = false := by simpa using hws
    have h4 : regexSpace c = false := by
      cases hre : regexSpace c
      · rfl
      · rw [regexSpace_imp_goIsSpace hre] at h3
        cases h3
    rw [h3, h4]

/-! Structural facts about the regex replacement scan, towards idempotence
of the normalisation. -/

theorem dropWhile_eq_cons_of_head? {α : Type} {p : α → Bool} {l : List α} {c : α}
    (h : (l.dropWhile p).head? = some c) :
    l.dropWhile p = c :: (l.dropWhile p).tail := by
  cases hq : l.dropWhile p with
  | nil =>
    rw [hq] at h
    cases h
  | cons e t =>
    rw [hq] at h
    simp only [List.head?_cons, Option.some.injEq] at h
    rw [h]
    rfl

theorem collapseTagsP_head? (p : Char → Bool) (s : List Char) :
    (collapseTagsP p s).head? = s.head? := by
  cases s with
  | nil => rw [collapseTagsP_nil]
  | cons c rest =>
    by_cases hm : c = '>' ∧ (rest.dropWhile p).head? = some '<'
    · rw [collapseTagsP_cons_match hm, hm.1]
      rfl
    · rw [collapseTagsP_cons_nomatch hm]
      rfl

theorem collapseTagsP_eq_nil_iff (p : Char → Bool) (s : List Char) :
    collapseTagsP p s = [] ↔ s = [] := by
  constructor
  · intro h
    cases s with
    | nil => rfl
    | cons c rest =>
      have h2 := collapseTagsP_head? p (c :: rest)
      rw [h] at h2
      simp at h2
  · intro h
    rw [h, collapseTagsP_nil]

theorem collapseTagsP_getLast? (p : Char → Bool) (s : List Char) :
    (collapseTagsP p s).getLast? = s.getLast? := by
  match s with
  | [] => rw [collapseTagsP_nil]
  | c :: rest =>
    by_cases hm : c = '>' ∧ (rest.dropWhile p).head? = some '<'
    · have hdw := dropWhile_eq_cons_of_head? hm.2
      have hrest : rest.takeWhile p ++ '<' :: (rest.dropWhile p).tail = rest := by
        conv_rhs => rw [← List.takeWhile_append_dropWhile p rest, hdw]
      have hrestne : rest ≠ [] := by
        intro hh
        rw [hh] at hrest
        simp at hrest
      rw [collapseTagsP_cons_match hm]
      have hrhs : (c :: rest).getLast? = ('<' :: (rest.dropWhile p).tail).getLast? := by
        rw [getLast?_cons_ne hrestne]
        conv_lhs => rw [← hrest]
        rw [getLast?_append_ne _ (by simp)]
      cases hTc : (rest.dropWhile p).tail with
      | nil =>
        rw [collapseTagsP_nil, hrhs, hTc]
        rfl
      | cons t1 t2 =>
        rw [← hTc]
        have hCTne : collapseTagsP p (rest.dropWhile p).tail ≠ [] := by
          rw [Ne, collapseTagsP_eq_nil_iff, hTc]
          simp
        rw [getLast?_cons_ne (by simp : ('<' :: collapseTagsP p (rest.dropWhile p).tail) ≠ []),
          getLast?_cons_ne hCTne,
          collapseTagsP_getLast? p (rest.dropWhile p).tail, hrhs,
          getLast?_cons_ne (by rw [hTc]; simp)]
    · rw [collapseTagsP_cons_nomatch hm]
      cases hr : rest with
      | nil =>
        rw [collapseTagsP_nil]
      | cons r1 r2 =>
        rw [← hr]
        have hrne : rest ≠ [] := by
          rw [hr]
          simp
        have hCTne : collapseTagsP p rest ≠ [] := by
          rw [Ne, collapseTagsP_eq_nil_iff]
          exact hrne
        rw [getLast?_cons_ne hCTne, collapseTagsP_getLast? p rest,
          getLast?_cons_ne hrne]
termination_by s.length
decreasing_by
  · have h1 := (@List.dropWhile_sublist Char rest p).length_le
    have h2 := congrArg List.length hdw
    simp only [List.length_cons] at h2
    simp only [List.length_cons]
    omega
  · have h2 := congrArg List.length hr
    simp only [List.length_cons] at h2
    simp only [List.length_cons]
    omega

theorem collapseTagsP_sublist (p : Char → Bool) (s : List Char) :
    (collapseTagsP p s).Sublist s := by
  match s with
  | [] =>
    rw [collapseTagsP_nil]
  | c :: rest =>
    by_cases hm : c = '>' ∧ (rest.dropWhile p).head? = some '<'
    · have hdw := dropWhile_eq_cons_of_head? hm.2
      have hrest : rest.takeWhile p ++ '<' :: (rest.dropWhile p).tail = rest := by
        conv_rhs => rw [← List.takeWhile_append_dropWhile p rest, hdw]
      rw [collapseTagsP_cons_match hm, hm.1]
      conv_rhs => rw [← hrest]
      apply List.Sublist.cons₂
      have h1 : ('<' :: collapseTagsP p (rest.dropWhile p).tail).Sublist
          ('<' :: (rest.dropWhile p).tail) :=
        List.Sublist.cons₂ _ (collapseTagsP_sublist p (rest.dropWhile p).tail)
      exact h1.trans (List.sublist_append_right _ _)
    · rw [collapseTagsP_cons_nomatch hm]
      exact List.Sublist.cons₂ _ (collapseTagsP_sublist p rest)
termination_by s.length
decreasing_by
  · have h1 := (@List.dropWhile_sublist Char rest p).length_le
    have h2 := congrArg List.length hdw
    simp only [List.length_cons] at h2
    simp only [List.length_cons]
    omega
  · simp

theorem collapseTagsP_chain' {R : Char → Char → Prop} (hgl : R '>' '<')
    (p : Char → Bool) (s : List Char) (h : List.Chain' R s) :
    List.Chain' R (collapseTagsP p s) := by
  match s with
  | [] =>
    rw [collapseTagsP_nil]
    exact h
  | c :: rest =>
    by_cases hm : c = '>' ∧ (rest.dropWhile p).head? = some '<'
    · have hdw := dropWhile_eq_cons_of_head? hm.2
      have hrest : rest.takeWhile p ++ '<' :: (rest.dropWhile p).tail = rest := by
        conv_rhs => rw [← List.takeWhile_append_dropWhile p rest, hdw]
      have htl : List.Chain' R ('<' :: (rest.dropWhile p).tail) := by
        apply chain'_append_right
        rw [hrest]
        exact h.tail
      rw [collapseTagsP_cons_match hm]
      rw [List.chain'_cons']
      constructor
      · intro y hy
        simp only [List.head?_cons, Option.mem_def, Option.some.injEq] at hy
        rw [← hy]
        exact hgl
      rw [List.chain'_cons']
      constructor
      · intro y hy
        rw [collapseTagsP_head? p (rest.dropWhile p).tail] at hy
        exact (List.chain'_cons'.mp htl).1 y hy
      · exact collapseTagsP_chain' hgl p (rest.dropWhile p).tail
          (List.chain'_cons'.mp htl).2
    · rw [collapseTagsP_cons_nomatch hm]
      rw [List.chain'_cons']
      constructor
      · intro y hy
        rw [collapseTagsP_head? p rest] at hy
        exact (List.chain'_cons'.mp h).1 y hy
      · exact collapseTagsP_chain' hgl p rest (List.chain'_cons'.mp h).2
termination_by s.length
decreasing_by
  · have h1 := (@List.dropWhile_sublist Char rest p).length_le
    have h2 := congrArg List.length hdw
    simp only [List.length_cons] at h2
    simp only [List.length_cons]
    omega
  · simp

theorem collapseTagsP_all_ws {p : Char → Bool} (hgt : p '>' = false)
    {l : List Char} (h : ∀ c ∈ l, p c = true) : collapseTagsP p l = l := by
  induction l with
  | nil => exact collapseTagsP_nil p
  | cons c t ih =>
    have hc : c ≠ '>' := by
      intro hh
      have h2 := h c (by simp)
      rw [hh, hgt] at h2
      cases h2
    rw [collapseTagsP_cons_nomatch (by intro hcon; exact hc hcon.1)]
    rw [ih (fun x hx => h x (by simp [hx]))]

theorem collapseTagsP_ws_front {p : Char → Bool} (hgt : p '>' = false)
    {w : List Char} (x : List Char) (hw : ∀ c ∈ w, p c = true) :
    collapseTagsP p (w ++ x) = w ++ collapseTagsP p x := by
  induction w with
  | nil => rfl
  | cons c t ih =>
    have hc : c ≠ '>' := by
      intro hh
      have h2 := hw c (by simp)
      rw [hh, hgt] at h2
      cases h2
    rw [List.cons_append,
      collapseTagsP_cons_nomatch (by intro hcon; exact hc hcon.1),
      ih (fun y hy => hw y (by simp [hy])), List.cons_append]

theorem collapseTagsP_idem (p : Char → Bool) (hgt : p '>' = false)
    (hlt : p '<' = false) (s : List Char) :
    collapseTagsP p (collapseTagsP p s) = collapseTagsP p s := by
  match s with
  | [] => rw [collapseTagsP_nil, collapseTagsP_nil]
  | c :: rest =>
    by_cases hm : c = '>' ∧ (rest.dropWhile p).head? = some '<'
    · rw [collapseTagsP_cons_match hm]
      have hm2 : '>' = '>' ∧
          (('<' :: collapseTagsP p (rest.dropWhile p).tail).dropWhile p).head? =
            some '<' := by
        refine ⟨rfl, ?_⟩
        rw [List.dropWhile_cons_of_neg (by rw [hlt]; simp)]
        rfl
      rw [collapseTagsP_cons_match hm2]
      rw [List.dropWhile_cons_of_neg (by rw [hlt]; simp)]
      rw [show ('<' :: collapseTagsP p (rest.dropWhile p).tail).tail =
        collapseTagsP p (rest.dropWhile p).tail from rfl]
      rw [collapseTagsP_idem p hgt hlt (rest.dropWhile p).tail]
    · rw [collapseTagsP_cons_nomatch hm]
      by_cases hcgt : c = '>'
      · have hnot : ¬((rest.dropWhile p).head? = some '<') := by
          intro hh
          exact hm ⟨hcgt, hh⟩
        have hsame : ((collapseTagsP p rest).dropWhile p).head? =
            (rest.dropWhile p).head? := by
          cases hdr : rest.dropWhile p with
          | nil =>
            have hall : ∀ x ∈ rest, p x = true := List.dropWhile_eq_nil_iff.mp hdr
            rw [collapseTagsP_all_ws hgt hall, hdr]
          | cons e t =>
            have hpe : p e = false := by
              have h9 := head?_dropWhile_false
                (show (rest.dropWhile p).head? = some e by rw [hdr]; rfl)
              exact h9
            have hrdecomp : rest.takeWhile p ++ e :: t = rest := by
              conv_rhs => rw [← List.takeWhile_append_dropWhile p rest, hdr]
            have hCT : collapseTagsP p rest =
                rest.takeWhile p ++ collapseTagsP p (e :: t) := by
              conv_lhs => rw [← hrdecomp]
              rw [collapseTagsP_ws_front hgt (e :: t) takeWhile_all_true]
            rw [hCT, dropWhile_append_all _ takeWhile_all_true]
            have hCThead := collapseTagsP_head? p (e :: t)
            have hCTet : collapseTagsP p (e :: t) =
                e :: (collapseTagsP p (e :: t)).tail := by
              cases hq : collapseTagsP p (e :: t) with
              | nil =>
                rw [collapseTagsP_eq_nil_iff] at hq
                cases hq
              | cons z1 z2 =>
                rw [hq] at hCThead
                simp only [List.head?_cons] at hCThead
                have hz : z1 = e := by
                  simpa using hCThead
                rw [hz]
                rfl
            rw [hCTet, List.dropWhile_cons_of_neg (by rw [hpe]; simp)]
            rfl
        rw [collapseTagsP_cons_nomatch (by
          intro hcon
          rw [hsame] at hcon
          exact hm ⟨hcon.1, hcon.2⟩)]
        rw [collapseTagsP_idem p hgt hlt rest]
      · rw [collapseTagsP_cons_nomatch (by intro hcon; exact hcgt hcon.1)]
        rw [collapseTagsP_idem p hgt hlt rest]
termination_by s.length
decreasing_by
  · have h1 := (@List.dropWhile_sublist Char rest p).length_le
    have h2 : rest.dropWhile p ≠ [] := by
      intro hh
      rw [hh] at hm
      simp at hm
    have h3 : (rest.dropWhile p).length ≠ 0 := by
      simpa using h2
    simp only [List.length_tail, List.length_cons]
    omega
  · simp
  · simp

/-! Shape of the joined fields: non-whitespace ends, no two adjacent
whitespace characters, and reconstruction of canonical strings. -/

theorem joinSp_head? (x : List Char) (l : List (List Char)) (hx : x ≠ []) :
    (joinSp (x :: l)).head? = x.head? := by
  cases l with
  | nil => rfl
  | cons y r =>
    rw [joinSp_cons x (by simp)]
    exact head?_append_ne _ hx

theorem joinSp_getLast (l : List (List Char)) (hl : l ≠ [])
    (htok : ∀ t ∈ l, t ≠ []) :
    ∃ t, l.getLast? = some t ∧ (joinSp l).getLast? = t.getLast? := by
  induction l with
  | nil => exact absurd rfl hl
  | cons x r ih =>
    cases r with
    | nil => exact ⟨x, rfl, rfl⟩
    | cons y r2 =>
      obtain ⟨t, h1, h2⟩ := ih (by simp) (fun u hu => htok u (by simp [hu]))
      refine ⟨t, ?_, ?_⟩
      · rw [List.getLast?_cons_cons]
        exact h1
      · rw [joinSp_cons x (by simp)]
        have hjne : joinSp (y :: r2) ≠ [] := by
          have hhd := joinSp_head? y r2 (htok y (by simp))
          intro hnil
          rw [hnil] at hhd
          cases hy : y with
          | nil => exact htok y (by simp) hy
          | cons a b =>
            rw [hy] at hhd
            simp at hhd
        rw [getLast?_append_ne _ (by simp), getLast?_cons_ne hjne]
        exact h2

theorem chain'_of_all_nonws {t : List Char}
    (h : ∀ c ∈ t, goIsSpace c = false) :
    List.Chain' (fun a b => ¬(goIsSpace a = true ∧ goIsSpace b = true)) t := by
  induction t with
  | nil => simp
  | cons c r ih =>
    rw [List.chain'_cons']
    refine ⟨?_, ih (fun x hx => h x (by simp [hx]))⟩
    intro y hy hcon
    have h1 := hcon.1
    rw [h c (by simp)] at h1
    exact Bool.false_ne_true h1

theorem joinSp_chain' (l : List (List Char))
    (htok : ∀ t ∈ l, t ≠ [] ∧ ∀ c ∈ t, goIsSpace c = false) :
    List.Chain' (fun a b => ¬(goIsSpace a = true ∧ goIsSpace b = true)) (joinSp l) := by
  induction l with
  | nil => simp [joinSp_nil]
  | cons x r ih =>
    cases r with
    | nil =>
      rw [joinSp_single]
      exact chain'_of_all_nonws (htok x (by simp)).2
    | cons y r2 =>
      rw [joinSp_cons x (by simp)]
      rw [List.chain'_append]
      refine ⟨chain'_of_all_nonws (htok x (by simp)).2, ?_, ?_⟩
      · rw [List.chain'_cons']
        refine ⟨?_, ih (fun u hu => htok u (by simp [hu]))⟩
        intro y2 hy2 hcon
        rw [joinSp_head? y r2 (htok y (by simp)).1] at hy2
        have hymem : y2 ∈ y := by
          cases hy : y with
          | nil =>
            rw [hy] at hy2
            simp at hy2
          | cons a b =>
            rw [hy] at hy2
            simp at hy2
            simp [hy, hy2]
        have h3 := (htok y (by simp)).2 y2 hymem
        rw [h3] at hcon
        exact Bool.false_ne_true hcon.2
      · intro a ha b hb hcon
        have hamem : a ∈ x := getLast?_mem (Option.mem_def.mp ha)
        have h3 := (htok x (by simp)).2 a hamem
        rw [h3] at hcon
        exact Bool.false_ne_true hcon.1

theorem joinSp_fields_head_nonws (v : List Char) :
    ∀ c, (joinSp (fields v)).head? = some c → goIsSpace c = false := by
  intro c hc
  cases hf : fields v with
  | nil =>
    rw [hf, joinSp_nil] at hc
    cases hc
  | cons t l =>
    rw [hf] at hc
    have ht := fields_token_prop v t (by rw [hf]; simp)
    rw [joinSp_head? t l ht.1] at hc
    apply ht.2
    cases hty : t with
    | nil => exact absurd hty ht.1
    | cons a b =>
      rw [hty] at hc
      simp only [List.head?_cons, Option.some.injEq] at hc
      rw [← hc]
      simp

theorem joinSp_fields_getLast_nonws (v : List Char) :
    ∀ c, (joinSp (fields v)).getLast? = some c → goIsSpace c = false := by
  intro c hc
  cases hf : fields v with
  | nil =>
    rw [hf, joinSp_nil] at hc
    cases hc
  | cons t l =>
    rw [hf] at hc
    obtain ⟨u, h1, h2⟩ := joinSp_getLast (t :: l) (by simp)
      (fun w hw => (fields_token_prop v w (by rw [hf]; exact hw)).1)
    rw [h2] at hc
    have humem : u ∈ t :: l := getLast?_mem h1
    have hu := fields_token_prop v u (by rw [hf]; exact humem)
    exact hu.2 c (getLast?_mem hc)

/-- A string whose whitespace characters are all single spaces, whose ends
are non-whitespace, and which has no two adjacent whitespace characters, is
reproduced exactly by splitting into fields and re-joining with spaces. -/
theorem joinSp_fields_id (N : List Char)
    (ha : ∀ c ∈ N, goIsSpace c = true → c = ' ')
    (hh : ∀ c, N.head? = some c → goIsSpace c = false)
    (hl : ∀ c, N.getLast? = some c → goIsSpace c = false)
    (hchain : List.Chain' (fun a b => ¬(goIsSpace a = true ∧ goIsSpace b = true)) N) :
    joinSp (fields N) = N := by
  match N with
  | [] => rw [fields_nil, joinSp_nil]
  | c :: rest =>
    have hc : goIsSpace c = false := hh c rfl
    rw [fields_cons_of_token hc]
    have hrest : rest.takeWhile (fun x => !goIsSpace x) ++
        rest.dropWhile (fun x => !goIsSpace x) = rest :=
      List.takeWhile_append_dropWhile _ _
    cases hD : rest.dropWhile (fun x => !goIsSpace x) with
    | nil =>
      rw [hD, List.append_nil] at hrest
      rw [fields_nil, joinSp_single, hrest]
    | cons d D2 =>
      have hd : goIsSpace d = true := by
        have h4 := head?_dropWhile_false
          (show ((rest.dropWhile (fun x => !goIsSpace x)).head?) = some d by rw [hD]; rfl)
        simpa using h4
      have hdmem : d ∈ c :: rest := by
        apply List.mem_cons_of_mem
        apply (@List.dropWhile_sublist Char rest (fun x => !goIsSpace x)).subset
        rw [hD]
        simp
      have hdsp : d = ' ' := ha d hdmem hd
      have hN : c :: rest = (c :: rest.takeWhile (fun x => !goIsSpace x)) ++ d :: D2 := by
        rw [List.cons_append]
        congr 1
        conv_lhs => rw [← hrest, hD]
      have hchainD : List.Chain'
          (fun a b => ¬(goIsSpace a = true ∧ goIsSpace b = true)) (d :: D2) := by
        apply chain'_append_right
        rw [← hN]
        exact hchain
      have hD2ne : D2 ≠ [] := by
        intro hh2
        have hgl : (c :: rest).getLast? = some d := by
          rw [hN, hh2, getLast?_append_ne _ (by simp)]
          rfl
        have h5 := hl d hgl
        rw [hd] at h5
        cases h5
      have hD2head : ∀ y, D2.head? = some y → goIsSpace y = false := by
        intro y hy
        have h6 := (List.chain'_cons'.mp hchainD).1 y (Option.mem_def.mpr hy)
        by_cases hws : goIsSpace y = true
        · exact absurd ⟨hd, hws⟩ h6
        · simpa using hws
      have harec : ∀ x ∈ D2, goIsSpace x = true → x = ' ' := by
        intro x hx
        apply ha
        rw [hN]
        simp [hx]
      have hlrec : ∀ x, D2.getLast? = some x → goIsSpace x = false := by
        intro x hx
        apply hl
        rw [hN, getLast?_append_ne _ (by simp), getLast?_cons_ne hD2ne]
        exact hx
      have hrec := joinSp_fields_id D2 harec hD2head hlrec
        (List.chain'_cons'.mp hchainD).2
      have hfD2 : fields (d :: D2) = fields D2 := fields_cons_of_ws hd
      have hfne : fields D2 ≠ [] := by
        intro hnil
        cases hD2c : D2 with
        | nil => exact hD2ne hD2c
        | cons e E =>
          have he := hD2head e (by rw [hD2c]; rfl)
          have h7 := all_ws_of_fields_eq_nil D2 hnil e (by rw [hD2c]; simp)
          rw [he] at h7
          cases h7
      rw [hfD2, joinSp_cons _ hfne, hrec, hN, hdsp, List.cons_append]
termination_by N.length
decreasing_by
  have h1 := (@List.dropWhile_sublist Char rest (fun x => !goIsSpace x)).length_le
  have h2 := congrArg List.length hD
  simp only [List.length_cons] at h2
  simp only [List.length_cons]
  omega

/-! The normalised output is a fixed point of each pipeline stage. -/

theorem replaceCRLF_eq_self {s : List Char} (h : ∀ c ∈ s, c ≠ '\r') :
    replaceCRLF s = s := by
  match s with
  | [] => rfl
  | [c] => rfl
  | c :: c2 :: rest =>
    have hc : ¬(c = '\r' ∧ c2 = '\n') := by
      intro hcon
      exact h c (by simp) hcon.1
    rw [replaceCRLF, if_neg hc,
      replaceCRLF_eq_self (fun x hx => h x (by simp [hx]))]
termination_by s.length
decreasing_by simp

theorem dropWhile_eq_self_of_head {p : Char → Bool} {l : List Char}
    (h : ∀ c, l.head? = some c → p c = false) : l.dropWhile p = l := by
  cases l with
  | nil => rfl
  | cons c t =>
    have hc := h c rfl
    rw [List.dropWhile_cons_of_neg (by rw [hc]; simp)]

theorem trimSpace_eq_self {l : List Char}
    (hh : ∀ c, l.head? = some c → goIsSpace c = false)
    (hl : ∀ c, l.getLast? = some c → goIsSpace c = false) :
    trimSpace l = l := by
  unfold trimSpace trimRight
  rw [dropWhile_eq_self_of_head hh]
  rw [dropWhile_eq_self_of_head (fun c hc => hl c (by
    rw [← List.head?_reverse]
    exact hc))]
  exact List.reverse_reverse l

theorem normalizeHTMLList_idem (x : List Char) :
    normalizeHTMLList (normalizeHTMLList x) = normalizeHTMLList x := by
  have hN : normalizeHTMLList x = collapseTagsP regexSpace (joinSp (fields x)) :=
    normalizeHTMLList_eq_of_fields x
  have haJ : ∀ c ∈ joinSp (fields x), goIsSpace c = true → c = ' ' :=
    fun c hc hws => joinSp_fields_ws_eq_space x hc hws
  have hsub := (collapseTagsP_sublist regexSpace (joinSp (fields x))).subset
  have haN : ∀ c ∈ collapseTagsP regexSpace (joinSp (fields x)),
      goIsSpace c = true → c = ' ' :=
    fun c hc hws => haJ c (hsub hc) hws
  have hhN : ∀ c, (collapseTagsP regexSpace (joinSp (fields x))).head? = some c →
      goIsSpace c = false := by
    intro c hc
    rw [collapseTagsP_head?] at hc
    exact joinSp_fields_head_nonws x c hc
  have hlN : ∀ c, (collapseTagsP regexSpace (joinSp (fields x))).getLast? = some c →
      goIsSpace c = false := by
    intro c hc
    rw [collapseTagsP_getLast?] at hc
    exact joinSp_fields_getLast_nonws x c hc
  have hchainN : List.Chain' (fun a b => ¬(goIsSpace a = true ∧ goIsSpace b = true))
      (collapseTagsP regexSpace (joinSp (fields x))) := by
    apply collapseTagsP_chain' (by decide)
    exact joinSp_chain' (fields x) (fields_token_prop x)
  have hnocr : ∀ c ∈ collapseTagsP regexSpace (joinSp (fields x)), c ≠ '\r' := by
    intro c hc hcr
    have h1 := haN c hc (by rw [hcr]; decide)
    rw [hcr] at h1
    exact absurd h1 (by decide)
  rw [hN]
  rw [normalizeHTMLList]
  rw [replaceCRLF_eq_self hnocr]
  rw [trimSpace_eq_self hhN hlN]
  rw [joinSp_fields_id _ haN hhN hlN hchainN]
  exact collapseTagsP_idem regexSpace (by decide) (by decide) _

/-- C6: `normalizeHTML` is idempotent: for every string `a`,
`normalize(a) == normalize(normalize(a))`. -/
theorem c6_normalize_idempotent (s : String) :
    normalizeHTML (normalizeHTML s) = normalizeHTML s := by
  unfold normalizeHTML
  congr 1
  exact normalizeHTMLList_idem s.data

/-! Invariance of the normalisation under deleting one inter-tag
whitespace run, and hence under the equivalence closure of such steps. -/

theorem collapseTagsP_delete_run (p : Char → Bool) (hgt : p '>' = false)
    (hlt : p '<' = false) (u v w : List Char) (hw : ∀ c ∈ w, p c = true) :
    collapseTagsP p (u ++ '>' :: (w ++ '<' :: v)) =
      collapseTagsP p (u ++ '>' :: '<' :: v) := by
  match u with
  | [] =>
    rw [List.nil_append, List.nil_append]
    have hdw1 : (w ++ '<' :: v).dropWhile p = '<' :: v := by
      rw [dropWhile_append_all _ hw, List.dropWhile_cons_of_neg (by rw [hlt]; simp)]
    have hm1 : '>' = '>' ∧ ((w ++ '<' :: v).dropWhile p).head? = some '<' := by
      refine ⟨rfl, ?_⟩
      rw [hdw1]
      rfl
    have hm2 : '>' = '>' ∧ (('<' :: v).dropWhile p).head? = some '<' := by
      refine ⟨rfl, ?_⟩
      rw [List.dropWhile_cons_of_neg (by rw [hlt]; simp)]
      rfl
    rw [collapseTagsP_cons_match hm1, collapseTagsP_cons_match hm2, hdw1,
      List.dropWhile_cons_of_neg (by rw [hlt]; simp)]
  | c :: u2 =>
    rw [List.cons_append, List.cons_append]
    cases hd : u2.dropWhile p with
    | nil =>
      have hall : ∀ x ∈ u2, p x = true := List.dropWhile_eq_nil_iff.mp hd
      have hdw1 : (u2 ++ '>' :: (w ++ '<' :: v)).dropWhile p =
          '>' :: (w ++ '<' :: v) := by
        rw [dropWhile_append_all _ hall,
          List.dropWhile_cons_of_neg (by rw [hgt]; simp)]
      have hdw2 : (u2 ++ '>' :: '<' :: v).dropWhile p = '>' :: '<' :: v := by
        rw [dropWhile_append_all _ hall,
          List.dropWhile_cons_of_neg (by rw [hgt]; simp)]
      rw [collapseTagsP_cons_nomatch (by
          intro hcon
          have h2 := hcon.2
          rw [hdw1] at h2
          simp at h2),
        collapseTagsP_cons_nomatch (by
          intro hcon
          have h2 := hcon.2
          rw [hdw2] at h2
          simp at h2),
        collapseTagsP_delete_run p hgt hlt u2 v w hw]
    | cons e t =>
      have hdw1 : (u2 ++ '>' :: (w ++ '<' :: v)).dropWhile p =
          (e :: t) ++ '>' :: (w ++ '<' :: v) := by
        rw [dropWhile_append_stop _ (by rw [hd]; simp), hd]
      have hdw2 : (u2 ++ '>' :: '<' :: v).dropWhile p =
          (e :: t) ++ '>' :: '<' :: v := by
        rw [dropWhile_append_stop _ (by rw [hd]; simp), hd]
      by_cases hce : c = '>' ∧ e = '<'
      · have hm1 : c = '>' ∧
            ((u2 ++ '>' :: (w ++ '<' :: v)).dropWhile p).head? = some '<' := by
          refine ⟨hce.1, ?_⟩
          rw [hdw1, List.cons_append]
          simp [hce.2]
        have hm2 : c = '>' ∧
            ((u2 ++ '>' :: '<' :: v).dropWhile p).head? = some '<' := by
          refine ⟨hce.1, ?_⟩
          rw [hdw2, List.cons_append]
          simp [hce.2]
        rw [collapseTagsP_cons_match hm1, collapseTagsP_cons_match hm2, hdw1, hdw2,
          show ((e :: t) ++ '>' :: (w ++ '<' :: v)).tail = t ++ '>' :: (w ++ '<' :: v) from rfl,
          show ((e :: t) ++ '>' :: '<' :: v).tail = t ++ '>' :: '<' :: v from rfl,
          collapseTagsP_delete_run p hgt hlt t v w hw]
      · have hh1 : ¬(c = '>' ∧
            ((u2 ++ '>' :: (w ++ '<' :: v)).dropWhile p).head? = some '<') := by
          intro hcon
          apply hce
          refine ⟨hcon.1, ?_⟩
          have h2 := hcon.2
          rw [hdw1, List.cons_append] at h2
          simpa using h2
        have hh2 : ¬(c = '>' ∧
            ((u2 ++ '>' :: '<' :: v).dropWhile p).head? = some '<') := by
          intro hcon
          apply hce
          refine ⟨hcon.1, ?_⟩
          have h2 := hcon.2
          rw [hdw2, List.cons_append] at h2
          simpa using h2
        rw [collapseTagsP_cons_nomatch hh1, collapseTagsP_cons_nomatch hh2,
          collapseTagsP_delete_run p hgt hlt u2 v w hw]
termination_by u.length
decreasing_by
  · simp
  · have h1 := (@List.dropWhile_sublist Char rest p).length_le
    have h2 := congrArg List.length hd
    simp only [List.length_cons] at h2
    simp only [List.length_cons]
    omega
  · simp

theorem joinSp_cons_head (x1 x2 : List Char) (l : List (List Char)) :
    ∃ γ, joinSp (x1 :: l) = x1 ++ γ ∧ joinSp (x2 :: l) = x2 ++ γ := by
  cases l with
  | nil =>
    exact ⟨[], by rw [joinSp_single, List.append_nil],
      by rw [joinSp_single, List.append_nil]⟩
  | cons y r =>
    exact ⟨' ' :: joinSp (y :: r), joinSp_cons x1 (by simp),
      joinSp_cons x2 (by simp)⟩

theorem joinSp_fields_delete_run (u v w : List Char)
    (hw : ∀ c ∈ w, goIsSpace c = true) (hne : w ≠ []) :
    ∃ α β,
      joinSp (fields (u ++ '>' :: (w ++ '<' :: v))) = α ++ '>' :: ' ' :: '<' :: β ∧
      joinSp (fields (u ++ '>' :: '<' :: v)) = α ++ '>' :: '<' :: β := by
  cases w with
  | nil => exact absurd rfl hne
  | cons w0 w2 =>
  have hw0 : goIsSpace w0 = true := hw w0 (by simp)
  have hw2 : ∀ c ∈ w2, goIsSpace c = true := fun c hc => hw c (by simp [hc])
  match u with
  | [] =>
    simp only [List.nil_append, List.cons_append]
    have hfX1 : fields ('>' :: w0 :: (w2 ++ '<' :: v)) =
        ['>'] :: ('<' :: v.takeWhile (fun x => !goIsSpace x)) ::
          fields (v.dropWhile (fun x => !goIsSpace x)) := by
      rw [fields_cons_of_token (by decide),
        List.takeWhile_cons_of_neg (by simp [hw0]),
        List.dropWhile_cons_of_neg (by simp [hw0]),
        fields_cons_of_ws hw0, fields_ws_front _ hw2,
        fields_cons_of_token (by decide)]
    have hfX2 : fields ('>' :: '<' :: v) =
        ('>' :: '<' :: v.takeWhile (fun x => !goIsSpace x)) ::
          fields (v.dropWhile (fun x => !goIsSpace x)) := by
      rw [fields_cons_of_token (by decide),
        List.takeWhile_cons_of_pos (by decide),
        List.dropWhile_cons_of_pos (by decide)]
    obtain ⟨γ, h1, h2⟩ := joinSp_cons_head
      ('<' :: v.takeWhile (fun x => !goIsSpace x))
      ('>' :: '<' :: v.takeWhile (fun x => !goIsSpace x))
      (fields (v.dropWhile (fun x => !goIsSpace x)))
    refine ⟨[], v.takeWhile (fun x => !goIsSpace x) ++ γ, ?_, ?_⟩
    · rw [hfX1, joinSp_cons _ (by simp), h1]
      simp
    · rw [hfX2, h2]
      simp
  | c :: u2 =>
    simp only [List.cons_append]
    by_cases hcws : goIsSpace c = true
    · rw [fields_cons_of_ws hcws, fields_cons_of_ws hcws]
      have hrec := joinSp_fields_delete_run u2 v (w0 :: w2) hw hne
      simpa only [List.cons_append] using hrec
    · have hcn : goIsSpace c = false := by simpa using hcws
      rw [fields_cons_of_token hcn, fields_cons_of_token hcn]
      cases hd : u2.dropWhile (fun x => !goIsSpace x) with
      | nil =>
        have hall : ∀ x ∈ u2, (fun x => !goIsSpace x) x = true :=
          List.dropWhile_eq_nil_iff.mp hd
        have ht1 : (u2 ++ '>' :: w0 :: (w2 ++ '<' :: v)).takeWhile
            (fun x => !goIsSpace x) = u2 ++ ['>'] := by
          rw [takeWhile_append_all _ hall,
            List.takeWhile_cons_of_pos (by decide),
            List.takeWhile_cons_of_neg (by simp [hw0])]
        have hdr1 : (u2 ++ '>' :: w0 :: (w2 ++ '<' :: v)).dropWhile
            (fun x => !goIsSpace x) = w0 :: (w2 ++ '<' :: v) := by
          rw [dropWhile_append_all _ hall,
            List.dropWhile_cons_of_pos (by decide),
            List.dropWhile_cons_of_neg (by simp [hw0])]
        have ht2 : (u2 ++ '>' :: '<' :: v).takeWhile (fun x => !goIsSpace x) =
            u2 ++ '>' :: '<' :: v.takeWhile (fun x => !goIsSpace x) := by
          rw [takeWhile_append_all _ hall,
            List.takeWhile_cons_of_pos (by decide),
            List.takeWhile_cons_of_pos (by decide)]
        have hdr2 : (u2 ++ '>' :: '<' :: v).dropWhile (fun x => !goIsSpace x) =
            v.dropWhile (fun x => !goIsSpace x) := by
          rw [dropWhile_append_all _ hall,
            List.dropWhile_cons_of_pos (by decide),
            List.dropWhile_cons_of_pos (by decide)]
        rw [ht1, hdr1, ht2, hdr2,
          fields_cons_of_ws hw0, fields_ws_front _ hw2,
          fields_cons_of_token (by decide)]
        obtain ⟨γ, h1, h2⟩ := joinSp_cons_head
          ('<' :: v.takeWhile (fun x => !goIsSpace x))
          (c :: (u2 ++ '>' :: '<' :: v.takeWhile (fun x => !goIsSpace x)))
          (fields (v.dropWhile (fun x => !goIsSpace x)))
        refine ⟨c :: u2, v.takeWhile (fun x => !goIsSpace x) ++ γ, ?_, ?_⟩
        · rw [joinSp_cons _ (by simp), h1]
          simp
        · rw [h2]
          simp
      | cons e t =>
        have hpe : goIsSpace e = true := by
          have h9 := head?_dropWhile_false
            (show ((u2.dropWhile (fun x => !goIsSpace x)).head?) = some e by
              rw [hd]; rfl)
          simpa using h9
        have ht1 : (u2 ++ '>' :: w0 :: (w2 ++ '<' :: v)).takeWhile
            (fun x => !goIsSpace x) = u2.takeWhile (fun x => !goIsSpace x) :=
          takeWhile_append_stop _ (by rw [hd]; simp)
        have hdr1 : (u2 ++ '>' :: w0 :: (w2 ++ '<' :: v)).dropWhile
            (fun x => !goIsSpace x) = e :: (t ++ '>' :: w0 :: (w2 ++ '<' :: v)) := by
          rw [dropWhile_append_stop _ (by rw [hd]; simp), hd, List.cons_append]
        have ht2 : (u2 ++ '>' :: '<' :: v).takeWhile (fun x => !goIsSpace x) =
            u2.takeWhile (fun x => !goIsSpace x) :=
          takeWhile_append_stop _ (by rw [hd]; simp)
        have hdr2 : (u2 ++ '>' :: '<' :: v).dropWhile (fun x => !goIsSpace x) =
            e :: (t ++ '>' :: '<' :: v) := by
          rw [dropWhile_append_stop _ (by rw [hd]; simp), hd, List.cons_append]
        rw [ht1, hdr1, ht2, hdr2, fields_cons_of_ws hpe, fields_cons_of_ws hpe]
        obtain ⟨α2, β2, h1, h2⟩ := joinSp_fields_delete_run t v (w0 :: w2) hw hne
        simp only [List.cons_append] at h1
        have hfne1 : fields (t ++ '>' :: w0 :: (w2 ++ '<' :: v)) ≠ [] := by
          intro hnil
          have h3 := all_ws_of_fields_eq_nil _ hnil '>' (by simp)
          exact absurd h3 (by decide)
        have hfne2 : fields (t ++ '>' :: '<' :: v) ≠ [] := by
          intro hnil
          have h3 := all_ws_of_fields_eq_nil _ hnil '>' (by simp)
          exact absurd h3 (by decide)
        refine ⟨(c :: u2.takeWhile (fun x => !goIsSpace x)) ++ ' ' :: α2, β2, ?_, ?_⟩
        · rw [joinSp_cons _ hfne1, h1]
          simp
        · rw [joinSp_cons _ hfne2, h2]
          simp
termination_by u.length
decreasing_by
  · simp
  · have h1 := (@List.dropWhile_sublist Char rest (fun x => !goIsSpace x)).length_le
    have h2 := congrArg List.length hd
    simp only [List.length_cons] at h2
    simp only [List.length_cons]
    omega

theorem normalizeHTMLList_deleteRun (u v w : List Char)
    (hw : ∀ c ∈ w, goIsSpace c = true) :
    normalizeHTMLList (u ++ '>' :: (w ++ '<' :: v)) =
      normalizeHTMLList (u ++ '>' :: '<' :: v) := by
  cases w with
  | nil => rfl
  | cons w0 w2 =>
    obtain ⟨α, β, h1, h2⟩ := joinSp_fields_delete_run u v (w0 :: w2) hw (by simp)
    rw [normalizeHTMLList_eq_of_fields, normalizeHTMLList_eq_of_fields, h1, h2]
    have h3 := collapseTagsP_delete_run regexSpace (by decide) (by decide) α β [' ']
      (by
        intro c hc
        simp at hc
        rw [hc]
        decide)
    simpa using h3

theorem normalizeHTMLList_eqvGen (x y : List Char)
    (h : Relation.EqvGen interTagStep x y) :
    normalizeHTMLList x = normalizeHTMLList y := by
  induction h with
  | rel a b hab =>
    cases hab with
    | deleteRun u v w hw => exact normalizeHTMLList_deleteRun u v w hw
  | refl a => rfl
  | symm a b hab ih => exact ih.symm
  | trans a b c hab hbc ih1 ih2 => exact ih1.trans ih2

/-- C7: two strings that differ only in whitespace runs (identical
`fields`), only in inter-tag whitespace (related by the equivalence closure
of deleting a whitespace run lying between `>` and a following `<`), or
only in CRLF-versus-LF line endings (identical after CRLF replacement),
normalise identically. -/
theorem c7_normalize_invariant (a b : String)
    (h : fields a.data = fields b.data ∨
      Relation.EqvGen interTagStep a.data b.data ∨
      replaceCRLF a.data = replaceCRLF b.data) :
    normalizeHTML a = normalizeHTML b := by
  unfold normalizeHTML
  congr 1
  rcases h with h | h | h
  · rw [normalizeHTMLList_eq_of_fields, normalizeHTMLList_eq_of_fields, h]
  · exact normalizeHTMLList_eqvGen _ _ h
  · rw [normalizeHTMLList_eq_of_fields, normalizeHTMLList_eq_of_fields,
      ← fields_replaceCRLF a.data, ← fields_replaceCRLF b.data, h]

/-- Witness for C7: two strings differing only in a CRLF-versus-LF line
ending normalise identically. -/
theorem c7_witness :
    (fields ("x>\r\n<y").data = fields ("x>\n<y").data ∨
      Relation.EqvGen interTagStep ("x>\r\n<y").data ("x>\n<y").data ∨
      replaceCRLF ("x>\r\n<y").data = replaceCRLF ("x>\n<y").data) ∧
    normalizeHTML "x>\r\n<y" = normalizeHTML "x>\n<y" := by
  have hd : replaceCRLF ("x>\r\n<y").data = replaceCRLF ("x>\n<y").data := by
    decide
  exact ⟨Or.inr (Or.inr hd),
    c7_normalize_invariant _ _ (Or.inr (Or.inr hd))⟩

end PocInfobipEmails
